import Mathlib

/-!
# golog: structured logging with a mapped diagnostic context

A shallow embedding of `mdclog.go` (package `golog`) and the properties of its
logger: the level filter, the JSON line format, the MDC store and the
`log-level:` configuration file.

Conventions of the embedding

* A Go `string` (and a `[]byte`) is the list of its bytes, each byte a natural
  number below 256.
* The logger is a value; a method with a pointer receiver returns the logger
  after the call.  The mutex is not modelled: every call runs to completion.
* The sink behind `io.Writer` is the list of bytes written to it so far.
* A Go `map[string]string` is the list of its entries in strictly increasing
  key order, so that two equal maps are equal values.
-/

set_option autoImplicit false

namespace Golog

/-! ## Strings -/

/-- A Go string: its bytes in order. -/
abbrev GoString := List Nat

/-- The bytes of an ASCII literal. -/
def bytesOf (s : String) : GoString := s.toList.map Char.toNat

/-- A Go `error` value that is not nil, by its message. -/
abbrev GoError := GoString

/-- Go's `<` on strings: bytewise lexicographic order. -/
def strLess : GoString → GoString → Bool
  | _, [] => false
  | [], _ :: _ => true
  | a :: s, b :: t => decide (a < b) || (a == b && strLess s t)

/-- Go's `strings.Index`: the offset of the first occurrence of `substr`. -/
def Index (s substr : GoString) : Option Nat :=
  if substr.isPrefixOf s then some 0
  else match s with
    | [] => none
    | _ :: t => (Index t substr).map (· + 1)

/-- Go's `strings.Contains`. -/
def Contains (s substr : GoString) : Bool :=
  (Index s substr).isSome

/-- The loop of `genSplit` for a separator that is not empty: cut at each
occurrence of `sep`. -/
def genSplit : Nat → GoString → GoString → List GoString
  | 0, s, _ => [s]
  | fuel + 1, s, sep =>
    match Index s sep with
    | none => [s]
    | some m => s.take m :: genSplit fuel (s.drop (m + sep.length)) sep

/-! ## Maps from string to string -/

/-- Entries of a map, as a list of key and value. -/
abbrev Entries := List (GoString × GoString)

/-- Keys strictly increasing from left to right. -/
def KeysAscending (es : Entries) : Prop :=
  es.Pairwise (fun a b => strLess a.1 b.1 = true)

/-- Assignment `m[key] = value` on the entry list of a map. -/
def insertEntry {β : Type} (key : GoString) (value : β) :
    List (GoString × β) → List (GoString × β)
  | [] => [(key, value)]
  | (k, v) :: rest =>
    if strLess key k then (key, value) :: (k, v) :: rest
    else if key = k then (key, value) :: rest
    else (k, v) :: insertEntry key value rest

/-- The builtin `delete(m, key)` on the entry list. -/
def eraseEntry (key : GoString) (es : Entries) : Entries :=
  es.filter (fun e => decide (e.1 ≠ key))

/-- The lookup `m[key]` on the entry list of a map. -/
def lookupEntry {β : Type} (key : GoString) : List (GoString × β) → Option β
  | [] => none
  | (k, v) :: rest => if key = k then some v else lookupEntry key rest

/-! ## UTF-8 (package `unicode/utf8`) -/

/-- The rune U+FFFD that stands for an encoding error. -/
def RuneError : Nat := 0xFFFD

/-- The table `first` with `acceptRanges` of package utf8: for a leading
byte, the length of the sequence it starts (0 when it starts none) and the
lowest and highest admissible second byte. -/
def first (s0 : Nat) : Nat × Nat × Nat :=
  if s0 < 0x80 then (1, 0, 0)
  else if s0 < 0xC2 then (0, 0, 0)
  else if s0 < 0xE0 then (2, 0x80, 0xBF)
  else if s0 = 0xE0 then (3, 0xA0, 0xBF)
  else if s0 < 0xED then (3, 0x80, 0xBF)
  else if s0 = 0xED then (3, 0x80, 0x9F)
  else if s0 < 0xF0 then (3, 0x80, 0xBF)
  else if s0 = 0xF0 then (4, 0x90, 0xBF)
  else if s0 < 0xF4 then (4, 0x80, 0xBF)
  else if s0 = 0xF4 then (4, 0x80, 0x8F)
  else (0, 0, 0)

/-- Go's `utf8.DecodeRuneInString`: the first rune of `s` and its width in
bytes; `(RuneError, 1)` for a byte that starts no valid sequence. -/
def DecodeRuneInString (s : GoString) : Nat × Nat :=
  match s with
  | [] => (RuneError, 0)
  | s0 :: _ =>
    let sz := (first s0).1
    let lo := (first s0).2.1
    let hi := (first s0).2.2
    if sz = 1 then (s0, 1)
    else if sz = 0 then (RuneError, 1)
    else if s.length < sz then (RuneError, 1)
    else
      let s1 := s.getD 1 0
      if s1 < lo ∨ hi < s1 then (RuneError, 1)
      else if sz ≤ 2 then ((s0 % 32) * 64 + s1 % 64, 2)
      else
        let s2 := s.getD 2 0
        if s2 < 0x80 ∨ 0xBF < s2 then (RuneError, 1)
        else if sz ≤ 3 then ((s0 % 16) * 4096 + (s1 % 64) * 64 + s2 % 64, 3)
        else
          let s3 := s.getD 3 0
          if s3 < 0x80 ∨ 0xBF < s3 then (RuneError, 1)
          else ((s0 % 8) * 262144 + (s1 % 64) * 4096 + (s2 % 64) * 64 + s3 % 64, 4)

/-- Go's `utf8.EncodeRune`: the UTF-8 bytes of a rune; a surrogate or a value
above U+10FFFF is written as U+FFFD. -/
def EncodeRune (r : Nat) : GoString :=
  if r ≤ 0x7F then [r]
  else if r ≤ 0x7FF then [0xC0 + r / 64, 0x80 + r % 64]
  else if 0x10FFFF < r ∨ (0xD800 ≤ r ∧ r ≤ 0xDFFF) then [0xEF, 0xBF, 0xBD]
  else if r ≤ 0xFFFF then [0xE0 + r / 4096, 0x80 + r / 64 % 64, 0x80 + r % 64]
  else [0xF0 + r / 262144, 0x80 + r / 4096 % 64, 0x80 + r / 64 % 64, 0x80 + r % 64]

/-- The loop of `utf8.ValidString`: no byte of `s` decodes to an error. -/
def validLoop : Nat → GoString → Bool
  | 0, s => s.isEmpty
  | fuel + 1, s =>
    match s with
    | [] => true
    | _ :: _ =>
      let d := DecodeRuneInString s
      if d.1 = RuneError ∧ d.2 = 1 then false
      else validLoop fuel (s.drop d.2)

/-- Go's `utf8.ValidString`. -/
def ValidString (s : GoString) : Bool :=
  validLoop s.length s

/-- Go's `utf8.RuneCountInString`, as a loop over at most `fuel` runes. -/
def runeCount : Nat → GoString → Nat
  | 0, _ => 0
  | fuel + 1, s =>
    match s with
    | [] => 0
    | _ :: _ => 1 + runeCount fuel (s.drop (DecodeRuneInString s).2)

/-- The loop of `explode`: one string for each of the first `n` runes, an
invalid byte as U+FFFD, and the rest of the string last. -/
def explodeLoop : Nat → GoString → List GoString
  | 0, s => [s]
  | n + 1, s =>
    let ch := (DecodeRuneInString s).1
    let size := (DecodeRuneInString s).2
    (if ch = RuneError then EncodeRune RuneError else s.take size) ::
      explodeLoop n (s.drop size)

/-- Go's `explode` without a limit: the string split into its runes. -/
def explode (s : GoString) : List GoString :=
  if runeCount s.length s = 0 then [] else explodeLoop (runeCount s.length s - 1) s

/-- Go's `strings.Split`. -/
def Split (s sep : GoString) : List GoString :=
  if sep.isEmpty then explode s else genSplit s.length s sep

/-- The upper-case form of an ASCII byte: a letter a to z moves down by the
distance from `a` to `A`. -/
def upperByte (c : Nat) : Nat :=
  if 0x61 ≤ c ∧ c ≤ 0x7A then c - 0x20 else c

/-- Go's `strings.ToUpper`.  A string of ASCII bytes has its letters a to z
replaced; any other string goes through `strings.Map(unicode.ToUpper, s)`,
for which `mapUpper` stands (the case tables of package unicode). -/
def ToUpper (mapUpper : GoString → GoString) (s : GoString) : GoString :=
  if s.all (fun c => decide (c < 0x80)) then s.map upperByte else mapUpper s

/-! ## Formatting (packages `strconv` and `fmt`) -/

/-- Decimal digits of `n`, most significant first, in front of `acc`. -/
def formatBits : Nat → Nat → GoString → GoString
  | 0, _, acc => acc
  | fuel + 1, n, acc =>
    if n < 10 then (48 + n) :: acc
    else formatBits fuel (n / 10) ((48 + n % 10) :: acc)

/-- Go's `strconv.AppendInt` in base 10. -/
def AppendInt (i : Int) : GoString :=
  if i < 0 then 0x2D :: formatBits (i.natAbs + 1) i.natAbs []
  else formatBits (i.natAbs + 1) i.natAbs []

/-- Go's `fmt.Sprintf`.  The text in front of the first `%` is copied; the
rest of the format with its verbs, and operands left over, are formatted by
`verbs`, which stands for the verb machinery of package fmt. -/
def Sprintf {α : Type} (verbs : GoString → List α → GoString)
    (format : GoString) (a : List α) : GoString :=
  let lit := format.takeWhile (fun c => c ≠ 0x25)
  let rest := format.dropWhile (fun c => c ≠ 0x25)
  if rest.isEmpty ∧ a.isEmpty then lit else lit ++ verbs rest a

/-! ## JSON encoding (package `encoding/json`, HTML escaping off) -/

/-- The table `hex` of package json. -/
def hex (n : Nat) : Nat :=
  if n < 10 then 48 + n else 87 + n

/-- What follows the backslash for an ASCII byte outside `safeSet`.  Backspace
and form feed take the `u00` form here, as in the Go releases before 1.22;
the later releases write them with the letters b and f, which decode to the
same bytes. -/
def escapeByte (b : Nat) : GoString :=
  if b = 0x5C ∨ b = 0x22 then [b]
  else if b = 0x0A then [0x6E]
  else if b = 0x0D then [0x72]
  else if b = 0x09 then [0x74]
  else [0x75, 0x30, 0x30, hex (b / 16), hex (b % 16)]

/-- The table `safeSet`: ASCII bytes written as they are. -/
def safeSet (b : Nat) : Bool :=
  decide (0x20 ≤ b) && decide (b < 0x80) && decide (b ≠ 0x22) && decide (b ≠ 0x5C)

/-- The loop of `encodeState.string` with `escapeHTML` false. -/
def stringLoop : Nat → GoString → GoString
  | 0, _ => []
  | fuel + 1, s =>
    match s with
    | [] => []
    | b :: rest =>
      if b < 0x80 then
        if safeSet b then b :: stringLoop fuel rest
        else 0x5C :: escapeByte b ++ stringLoop fuel rest
      else
        let c := (DecodeRuneInString s).1
        let size := (DecodeRuneInString s).2
        if c = RuneError ∧ size = 1 then
          [0x5C, 0x75, 0x66, 0x66, 0x66, 0x64] ++ stringLoop fuel (s.drop size)
        else if c = 0x2028 ∨ c = 0x2029 then
          [0x5C, 0x75, 0x32, 0x30, 0x32, hex (c % 16)] ++ stringLoop fuel (s.drop size)
        else s.take size ++ stringLoop fuel (s.drop size)

/-- A Go string as a JSON string literal (`encodeState.string`). -/
def encodeString (s : GoString) : GoString :=
  0x22 :: stringLoop s.length s ++ [0x22]

/-- The members of a JSON object for a `map[string]string`, keys ascending. -/
def encodeMembers : Entries → GoString
  | [] => []
  | [(k, v)] => encodeString k ++ 0x3A :: encodeString v
  | (k, v) :: e :: rest =>
    encodeString k ++ 0x3A :: encodeString v ++ 0x2C :: encodeMembers (e :: rest)

/-- A `map[string]string` that is not nil as a JSON object. -/
def encodeMap (m : Entries) : GoString :=
  0x7B :: encodeMembers m ++ [0x7D]

/-- The struct `logEntry`. -/
structure logEntry where
  Ts : Int
  Crit : GoString
  Id : GoString
  Mdc : Entries
  Msg : GoString

/-- The JSON object of a `logEntry`, fields in declaration order under their
tags (`json.Marshal`). -/
def marshalLogEntry (e : logEntry) : GoString :=
  0x7B :: bytesOf "\"ts\":" ++ AppendInt e.Ts ++
  bytesOf ",\"crit\":" ++ encodeString e.Crit ++
  bytesOf ",\"id\":" ++ encodeString e.Id ++
  bytesOf ",\"mdc\":" ++ encodeMap e.Mdc ++
  bytesOf ",\"msg\":" ++ encodeString e.Msg ++ [0x7D]

/-- The method `Encoder.Encode` for a `logEntry`: the JSON object and a
newline; the error is nil, a struct of an integer, strings and a string map
has no value the encoder rejects. -/
def Encode (e : logEntry) : GoString × Option GoError :=
  (marshalLogEntry e ++ [0x0A], none)

/-! ## JSON decoding (package `encoding/json`) -/

/-- A decoded JSON value, as `json.Unmarshal` stores it in an `interface{}`;
a number is kept by its literal. -/
inductive JSONValue where
  | null : JSONValue
  | bool (b : Bool) : JSONValue
  | number (literal : GoString) : JSONValue
  | string (s : GoString) : JSONValue
  | array (elems : List JSONValue) : JSONValue
  | object (members : List (GoString × JSONValue)) : JSONValue

/-- The function `isSpace` of the scanner. -/
def isSpace (c : Nat) : Bool :=
  decide (c = 0x20 ∨ c = 0x09 ∨ c = 0x0D ∨ c = 0x0A)

/-- The bytes of `s` behind its leading white space. -/
def skipSpace (s : GoString) : GoString :=
  s.dropWhile isSpace

/-- The value of a hexadecimal digit. -/
def hexValue (c : Nat) : Option Nat :=
  if 0x30 ≤ c ∧ c ≤ 0x39 then some (c - 0x30)
  else if 0x61 ≤ c ∧ c ≤ 0x66 then some (c - 0x61 + 10)
  else if 0x41 ≤ c ∧ c ≤ 0x46 then some (c - 0x41 + 10)
  else none

/-- The function `getu4` behind the backslash and the `u` of an escape: the
value of the four hexadecimal digits that follow. -/
def getu4 (s : GoString) : Option Nat :=
  match s with
  | a :: b :: c :: d :: _ =>
    match hexValue a, hexValue b, hexValue c, hexValue d with
    | some x, some y, some z, some w => some (x * 4096 + y * 256 + z * 16 + w)
    | _, _, _, _ => none
  | _ => none

/-- Go's `utf16.DecodeRune`. -/
def decodeSurrogates (r1 r2 : Nat) : Nat :=
  if 0xD800 ≤ r1 ∧ r1 < 0xDC00 ∧ 0xDC00 ≤ r2 ∧ r2 < 0xE000 then
    (r1 - 0xD800) * 1024 + (r2 - 0xDC00) + 0x10000
  else RuneError

/-- Puts decoded bytes in front of the rest of a decoded string. -/
def prepend (x : GoString) (r : Option (GoString × GoString)) : Option (GoString × GoString) :=
  r.map (fun p => (x ++ p.1, p.2))

/-- The function `unquote` together with the scan of the literal: the Go
string of a JSON string literal behind its opening quote, and what follows
the closing quote.  Bytes that are not valid UTF-8 become U+FFFD. -/
def unquoteLoop : Nat → GoString → Option (GoString × GoString)
  | 0, _ => none
  | fuel + 1, s =>
    match s with
    | [] => none
    | c :: rest =>
      if c = 0x22 then some ([], rest)
      else if c = 0x5C then
        match rest with
        | [] => none
        | e :: rest2 =>
          if e = 0x22 ∨ e = 0x5C ∨ e = 0x2F then prepend [e] (unquoteLoop fuel rest2)
          else if e = 0x62 then prepend [0x08] (unquoteLoop fuel rest2)
          else if e = 0x66 then prepend [0x0C] (unquoteLoop fuel rest2)
          else if e = 0x6E then prepend [0x0A] (unquoteLoop fuel rest2)
          else if e = 0x72 then prepend [0x0D] (unquoteLoop fuel rest2)
          else if e = 0x74 then prepend [0x09] (unquoteLoop fuel rest2)
          else if e = 0x75 then
            match getu4 rest2 with
            | none => none
            | some rr =>
              if 0xD800 ≤ rr ∧ rr < 0xE000 then
                match rest2.drop 4 with
                | 0x5C :: 0x75 :: rest3 =>
                  match getu4 rest3 with
                  | some rr1 =>
                    if decodeSurrogates rr rr1 ≠ RuneError then
                      prepend (EncodeRune (decodeSurrogates rr rr1)) (unquoteLoop fuel (rest3.drop 4))
                    else prepend (EncodeRune RuneError) (unquoteLoop fuel (rest2.drop 4))
                  | none => prepend (EncodeRune RuneError) (unquoteLoop fuel (rest2.drop 4))
                | _ => prepend (EncodeRune RuneError) (unquoteLoop fuel (rest2.drop 4))
              else prepend (EncodeRune rr) (unquoteLoop fuel (rest2.drop 4))
          else none
      else if c < 0x20 then none
      else if c < 0x80 then prepend [c] (unquoteLoop fuel rest)
      else
        prepend (EncodeRune (DecodeRuneInString s).1)
          (unquoteLoop fuel (s.drop (DecodeRuneInString s).2))

/-- A decimal digit. -/
def isDigit (c : Nat) : Bool := decide (0x30 ≤ c ∧ c ≤ 0x39)

/-- A number literal at the start of `s`, and what follows it. -/
def scanNumber (s : GoString) : Option (GoString × GoString) :=
  let sign := s.takeWhile (fun c => decide (c = 0x2D)) |>.take 1
  let s1 := s.drop sign.length
  let int := s1.takeWhile isDigit
  let s2 := s1.drop int.length
  if int.isEmpty ∨ (int.head? = some 0x30 ∧ int.length ≠ 1) then none
  else
    let fracOk : Option (GoString × GoString) :=
      match s2 with
      | 0x2E :: t =>
        let f := t.takeWhile isDigit
        if f.isEmpty then none else some (0x2E :: f, t.drop f.length)
      | _ => some ([], s2)
    match fracOk with
    | none => none
    | some (frac, s3) =>
      let expOk : Option (GoString × GoString) :=
        match s3 with
        | e :: t =>
          if e = 0x65 ∨ e = 0x45 then
            let sg := (t.takeWhile (fun c => decide (c = 0x2B ∨ c = 0x2D))).take 1
            let t2 := t.drop sg.length
            let ds := t2.takeWhile isDigit
            if ds.isEmpty then none else some (e :: sg ++ ds, t2.drop ds.length)
          else some ([], s3)
        | [] => some ([], s3)
      match expOk with
      | none => none
      | some (exp, s4) => some (sign ++ int ++ frac ++ exp, s4)

mutual
/-- A JSON value at the start of `s` behind optional white space. -/
def parseValue : Nat → GoString → Option (JSONValue × GoString)
  | 0, _ => none
  | fuel + 1, s =>
    match skipSpace s with
    | [] => none
    | c :: rest =>
      if c = 0x7B then
        match skipSpace rest with
        | 0x7D :: rest2 => some (JSONValue.object [], rest2)
        | _ => parseMembers fuel [] rest
      else if c = 0x5B then
        match skipSpace rest with
        | 0x5D :: rest2 => some (JSONValue.array [], rest2)
        | _ => parseElements fuel [] rest
      else if c = 0x22 then
        (unquoteLoop rest.length rest).map (fun p => (JSONValue.string p.1, p.2))
      else if (bytesOf "true").isPrefixOf (c :: rest) then some (JSONValue.bool true, rest.drop 3)
      else if (bytesOf "false").isPrefixOf (c :: rest) then some (JSONValue.bool false, rest.drop 4)
      else if (bytesOf "null").isPrefixOf (c :: rest) then some (JSONValue.null, rest.drop 3)
      else (scanNumber (c :: rest)).map (fun p => (JSONValue.number p.1, p.2))

/-- The members of an object behind the opening brace or a comma. -/
def parseMembers : Nat → List (GoString × JSONValue) → GoString → Option (JSONValue × GoString)
  | 0, _, _ => none
  | fuel + 1, acc, s =>
    match skipSpace s with
    | 0x22 :: rest =>
      match unquoteLoop rest.length rest with
      | none => none
      | some (key, rest2) =>
        match skipSpace rest2 with
        | 0x3A :: rest3 =>
          match parseValue fuel rest3 with
          | none => none
          | some (v, rest4) =>
            match skipSpace rest4 with
            | 0x2C :: rest5 => parseMembers fuel (insertEntry key v acc) rest5
            | 0x7D :: rest5 => some (JSONValue.object (insertEntry key v acc), rest5)
            | _ => none
        | _ => none
    | _ => none

/-- The elements of an array behind the opening bracket or a comma. -/
def parseElements : Nat → List JSONValue → GoString → Option (JSONValue × GoString)
  | 0, _, _ => none
  | fuel + 1, acc, s =>
    match parseValue fuel s with
    | none => none
    | some (v, rest) =>
      match skipSpace rest with
      | 0x2C :: rest2 => parseElements fuel (acc ++ [v]) rest2
      | 0x5D :: rest2 => some (JSONValue.array (acc ++ [v]), rest2)
      | _ => none
end

/-- Go's `json.Unmarshal` into an `interface{}`: the value, when the input is
one JSON value with white space around it. -/
def Unmarshal (data : GoString) : Option JSONValue :=
  match parseValue (data.length + 1) data with
  | none => none
  | some (v, rest) => if (skipSpace rest).isEmpty then some v else none

/-- The member `name` of an object as a Go string (`v[name].(string)`). -/
def stringField (v : JSONValue) (name : GoString) : Option GoString :=
  match v with
  | JSONValue.object ms =>
    match lookupEntry name ms with
    | some (JSONValue.string s) => some s
    | _ => none
  | _ => none

/-- The members of an object whose values are all strings. -/
def stringMembers : List (GoString × JSONValue) → Option Entries
  | [] => some []
  | (k, JSONValue.string s) :: rest => (stringMembers rest).map (fun es => (k, s) :: es)
  | _ :: _ => none

/-- The member `name` of an object as a map from string to string. -/
def stringMapField (v : JSONValue) (name : GoString) : Option Entries :=
  match v with
  | JSONValue.object ms =>
    match lookupEntry name ms with
    | some (JSONValue.object inner) => stringMembers inner
    | _ => none
  | _ => none

/-! ## The logger -/

/-- The type `Level`: a Go `int`. -/
abbrev Level := Int

/-- An error level log entry. -/
def ERR : Level := 1

/-- A warning level log entry. -/
def WARN : Level := 2

/-- An info level log entry. -/
def INFO : Level := 3

/-- A debug level log entry. -/
def DEBUG : Level := 4

/-- The logger instance.  `writer` holds the bytes the sink has received,
`mdc` is a map that is not nil (every logger is made by `initLogger`). -/
structure MdcLogger where
  proc : GoString
  writer : GoString
  mdc : Entries
  level : Level
  init_done : Int
  deriving DecidableEq

/-- The name of a level as the `crit` field shows it. -/
def levelString (level : Level) : GoString :=
  if level = ERR then bytesOf "ERROR"
  else if level = WARN then bytesOf "WARNING"
  else if level = INFO then bytesOf "INFO"
  else if level = DEBUG then bytesOf "DEBUG"
  else bytesOf ""

/-- Milliseconds since the epoch, from the clock reading in nanoseconds. -/
def getTime (now : Int) : Int :=
  Int.tdiv now 1000000

/-- The log line for a message at a level; `now` is the reading of the clock. -/
def formatLog (l : MdcLogger) (now : Int) (level : Level) (msg : GoString) :
    GoString × Option GoError :=
  Encode { Ts := getTime now, Crit := levelString level, Id := l.proc, Mdc := l.mdc, Msg := msg }

/-- A new logger over the given sink, together with the (nil) error. -/
def initLogger (proc : GoString) (writer : GoString) : MdcLogger × Option GoError :=
  ({ proc := proc, writer := writer, mdc := [], level := DEBUG, init_done := 0 }, none)

/-- A new logger writing to standard output, whose bytes so far are `stdout`. -/
def InitLogger (stdout : GoString) (proc : GoString) : MdcLogger × Option GoError :=
  initLogger proc stdout

/-- The basic logging function: writes a log message with the given level. -/
def Log {α : Type} (verbs : GoString → List α → GoString) (l : MdcLogger) (now : Int)
    (level : Level) (formatMsg : GoString) (a : List α) : MdcLogger :=
  if l.level < level then l
  else
    match formatLog l now level (Sprintf verbs formatMsg a) with
    | (log, none) => { l with writer := l.writer ++ log }
    | (_, some _) => l

/-- The error level logging function. -/
def Error {α : Type} (verbs : GoString → List α → GoString) (l : MdcLogger) (now : Int)
    (formatMsg : GoString) (a : List α) : MdcLogger :=
  Log verbs l now ERR formatMsg a

/-- The warning level logging function. -/
def Warning {α : Type} (verbs : GoString → List α → GoString) (l : MdcLogger) (now : Int)
    (formatMsg : GoString) (a : List α) : MdcLogger :=
  Log verbs l now WARN formatMsg a

/-- The info level logging function. -/
def Info {α : Type} (verbs : GoString → List α → GoString) (l : MdcLogger) (now : Int)
    (formatMsg : GoString) (a : List α) : MdcLogger :=
  Log verbs l now INFO formatMsg a

/-- The debug level logging function. -/
def Debug {α : Type} (verbs : GoString → List α → GoString) (l : MdcLogger) (now : Int)
    (formatMsg : GoString) (a : List α) : MdcLogger :=
  Log verbs l now DEBUG formatMsg a

/-- Sets the current logging level. -/
def LevelSet (l : MdcLogger) (level : Level) : MdcLogger :=
  { l with level := level }

/-- Returns the current logging level. -/
def LevelGet (l : MdcLogger) : Level :=
  l.level

/-- Adds a new MDC key value pair to the logger. -/
def MdcAdd (l : MdcLogger) (key value : GoString) : MdcLogger :=
  { l with mdc := insertEntry key value l.mdc }

/-- Removes an MDC key from the logger. -/
def MdcRemove (l : MdcLogger) (key : GoString) : MdcLogger :=
  { l with mdc := eraseEntry key l.mdc }

/-- Gets the value of an MDC from the logger, and whether the key was found. -/
def MdcGet (l : MdcLogger) (key : GoString) : GoString × Bool :=
  match lookupEntry key l.mdc with
  | some val => (val, true)
  | none => ([], false)

/-- Removes all MDC keys from the logger. -/
def MdcClean (l : MdcLogger) : MdcLogger :=
  { l with mdc := [] }

/-- Replaces the value of an MDC key: remove when present, then add. -/
def MdcUpdate (l : MdcLogger) (key value : GoString) : MdcLogger :=
  let ok := (MdcGet l key).2
  let l1 := if ok then MdcRemove l key else l
  MdcAdd l1 key value

/-- The body of the loop of `ParseFileContent` over the lines of the file;
`none` is the run-time panic of the index expression `strList[1]`. -/
def parseLines (mapUpper : GoString → GoString) : List GoString → MdcLogger → Option MdcLogger
  | [], l => some l
  | lineData :: rest, l =>
    if Contains lineData (bytesOf "log-level:") then
      let strList := Split lineData (bytesOf ":")
      match strList.get? 1 with
      | none => none
      | some s1 =>
        let level :=
          if Contains (ToUpper mapUpper s1) (bytesOf "DEBUG") then DEBUG
          else if Contains (ToUpper mapUpper s1) (bytesOf "INFO") then INFO
          else if Contains (ToUpper mapUpper s1) (bytesOf "ERR") then ERR
          else if Contains (ToUpper mapUpper s1) (bytesOf "WARN") then WARN
          else ERR
        parseLines mapUpper rest (LevelSet l level)
    else parseLines mapUpper rest l

/-- Reads the file and sets the level from its `log-level:` lines.
`readFile` is the file system as `ioutil.ReadFile` sees it (`none` for a read
error, after which the method prints a diagnostic to standard output and
returns); the result `none` is a run-time panic. -/
def ParseFileContent (mapUpper : GoString → GoString) (readFile : GoString → Option GoString)
    (l : MdcLogger) (fileName : GoString) : Option MdcLogger :=
  match readFile fileName with
  | none => some l
  | some data => parseLines mapUpper (Split data (bytesOf "\n")) l

/-! ## The process around the logger -/

/-- What the operating system and the packages `os`, `filepath` and `inotify`
answer at the time of a call: the environment, the process id, whether
`os.Stat` of a path gives an error that `os.IsNotExist` accepts, the content
`ioutil.ReadFile` returns (`none` for an error), the directory `filepath.Dir`
computes, whether `inotify.NewWatcher` returns a watcher, and whether
`AddWatch` on a directory returns no error. -/
structure OS where
  LookupEnv : GoString → Option GoString
  Getpid : Int
  statNotExist : GoString → Bool
  ReadFile : GoString → Option GoString
  Dir : GoString → GoString
  NewWatcher : Bool
  AddWatch : GoString → Bool

/-- The logger together with the goroutines it has started: `watching` holds the
file name of every `watch_changes` goroutine launched so far. -/
structure Process where
  logger : MdcLogger
  watching : List GoString
  deriving DecidableEq

/-- What a watcher delivers to the loop of `watch_changes`: an event with the
name of the file it is about, or an error. -/
inductive Notification where
  | event (name : GoString) : Notification
  | error (err : GoError) : Notification

/-- One turn of the loop of `watch_changes`: an event in the directory of the
file makes the logger parse the file again, an error is printed. -/
def watch_changes (mapUpper : GoString → GoString) (os : OS) (l : MdcLogger)
    (fileName : GoString) (n : Notification) : Option MdcLogger :=
  match n with
  | Notification.event name =>
    if Contains name (os.Dir fileName) then ParseFileContent mapUpper os.ReadFile l fileName
    else some l
  | Notification.error _ => some l

/-- The value of an environment variable, empty when it is not set. -/
def readEnvVar (os : OS) (_l : MdcLogger) (envKey : GoString) : GoString :=
  match os.LookupEnv envKey with
  | some envValue => envValue
  | none => bytesOf ""

/-- Go's `strconv.Itoa`. -/
def Itoa (i : Int) : GoString :=
  AppendInt i

/-- The slice `logFields` of `Mdclog_format_initialize`. -/
def logFields : List GoString :=
  [bytesOf "SYSTEM_NAME", bytesOf "HOST_NAME", bytesOf "SERVICE_NAME", bytesOf "CONTAINER_NAME",
    bytesOf "POD_NAME"]

/-- Fills the MDC from the environment and, when asked to and not done before,
starts watching the configuration file.  The result holds the process after
the call and the returned integer; `none` is a run-time panic. -/
def Mdclog_format_initialize (mapUpper : GoString → GoString) (os : OS) (p : Process)
    (logFileMonitor : Int) : Option (Process × Int) :=
  let l1 := logFields.foldl (fun l envKey => MdcUpdate l envKey (readEnvVar os l envKey)) p.logger
  let l2 := MdcUpdate l1 (bytesOf "PID") (Itoa os.Getpid)
  if logFileMonitor > 0 then
    let watchPath := readEnvVar os l2 (bytesOf "CONFIG_MAP_NAME")
    if !os.statNotExist watchPath then
      if l2.init_done = 0 then
        let l3 := { l2 with init_done := 1 }
        if !os.NewWatcher then some ({ logger := l3, watching := p.watching }, -1)
        else if !os.AddWatch (os.Dir watchPath) then
          some ({ logger := l3, watching := p.watching }, -1)
        else
          match ParseFileContent mapUpper os.ReadFile l3 watchPath with
          | none => none
          | some l4 => some ({ logger := l4, watching := p.watching ++ [watchPath] }, 0)
      else some ({ logger := l2, watching := p.watching }, -1)
    else some ({ logger := l2, watching := p.watching }, -1)
  else some ({ logger := l2, watching := p.watching }, -1)

/-- A call of a method that can change the logger, or a turn of the loop of a
watcher that was started. -/
inductive Op (α : Type) where
  | Log (now : Int) (level : Level) (formatMsg : GoString) (a : List α) : Op α
  | LevelSet (level : Level) : Op α
  | MdcAdd (key value : GoString) : Op α
  | MdcRemove (key : GoString) : Op α
  | MdcClean : Op α
  | MdcUpdate (key value : GoString) : Op α
  | ParseFileContent (fileName : GoString) : Op α
  | Mdclog_format_initialize (logFileMonitor : Int) : Op α
  | watch_changes (fileName : GoString) (n : Notification) : Op α

/-- The process after an operation, run to completion in the world `os`;
`none` is a run-time panic.  A turn of a watcher's loop happens only for a
watcher that was started. -/
def perform {α : Type} (verbs : GoString → List α → GoString) (mapUpper : GoString → GoString)
    (os : OS) (p : Process) : Op α → Option Process
  | Op.Log now level formatMsg a => some { p with logger := Log verbs p.logger now level formatMsg a }
  | Op.LevelSet level => some { p with logger := LevelSet p.logger level }
  | Op.MdcAdd key value => some { p with logger := MdcAdd p.logger key value }
  | Op.MdcRemove key => some { p with logger := MdcRemove p.logger key }
  | Op.MdcClean => some { p with logger := MdcClean p.logger }
  | Op.MdcUpdate key value => some { p with logger := MdcUpdate p.logger key value }
  | Op.ParseFileContent fileName =>
    (ParseFileContent mapUpper os.ReadFile p.logger fileName).map
      (fun l => { p with logger := l })
  | Op.Mdclog_format_initialize logFileMonitor =>
    ( Mdclog_format_initialize mapUpper os p logFileMonitor).map (fun r => r.1)
  | Op.watch_changes fileName n =>
    if fileName ∈ p.watching then
      (watch_changes mapUpper os p.logger fileName n).map (fun l => { p with logger := l })
    else some p

/-- The processes that exist: a new logger without watcher, and what any
operation in any world makes of a process that exists. -/
inductive Reachable {α : Type} (verbs : GoString → List α → GoString)
    (mapUpper : GoString → GoString) : Process → Prop where
  | init (proc writer : GoString) :
    Reachable verbs mapUpper { logger := (initLogger proc writer).1, watching := [] }
  | step (p q : Process) (os : OS) (op : Op α) :
    Reachable verbs mapUpper p → perform verbs mapUpper os p op = some q →
    Reachable verbs mapUpper q

/-! ## Vocabulary of the properties -/

/-- The level the specification gives to the value of a `log-level:` line:
first match on the upper-cased value among DEBUG, INFO, ERR, WARN in this
order, and ERR when none matches. -/
def levelOfValue (mapUpper : GoString → GoString) (value : GoString) : Level :=
  if Contains (ToUpper mapUpper value) (bytesOf "DEBUG") then DEBUG
  else if Contains (ToUpper mapUpper value) (bytesOf "INFO") then INFO
  else if Contains (ToUpper mapUpper value) (bytesOf "ERR") then ERR
  else if Contains (ToUpper mapUpper value) (bytesOf "WARN") then WARN
  else ERR

/-- The level the loop of `ParseFileContent` gives to a line: the level of the
component at index 1 of the line split at its colons. -/
def levelOfLine (mapUpper : GoString → GoString) (line : GoString) : Level :=
  levelOfValue mapUpper ((Split line (bytesOf ":")).getD 1 [])

/-- The last of the lines that contain `log-level:`, when there is one. -/
def lastDirective (lines : List GoString) : Option GoString :=
  (lines.filter (fun ln => Contains ln (bytesOf "log-level:"))).getLast?

/-- The logger after the first part of `Mdclog_format_initialize`: the five
identity variables and the process id written into the MDC. -/
def filledFromEnv (os : OS) (l : MdcLogger) : MdcLogger :=
  MdcUpdate (logFields.foldl (fun l envKey => MdcUpdate l envKey (readEnvVar os l envKey)) l)
    (bytesOf "PID") (Itoa os.Getpid)

/-- The path `Mdclog_format_initialize` watches: the value of the environment
variable `CONFIG_MAP_NAME`. -/
def watchPath (os : OS) (l : MdcLogger) : GoString :=
  readEnvVar os l (bytesOf "CONFIG_MAP_NAME")

/-- The world of the repository's test `TestLogLevelConfigFileParse`: the
variable `CONFIG_MAP_NAME` names `/tmp/log-file`, which exists and holds
`content`; no identity variable is set; the watcher and its watch are created
when `watcherOk` holds. -/
def testWorld (content : GoString) (watcherOk : Bool) : OS where
  LookupEnv := fun k => if k = bytesOf "CONFIG_MAP_NAME" then some (bytesOf "/tmp/log-file") else none
  Getpid := 4711
  statNotExist := fun path => decide (path ≠ bytesOf "/tmp/log-file")
  ReadFile := fun path => if path = bytesOf "/tmp/log-file" then some content else none
  Dir := fun _ => bytesOf "/tmp"
  NewWatcher := watcherOk
  AddWatch := fun _ => watcherOk

/-- A string the JSON encoder writes between quotes as it is: valid UTF-8
with no control byte, no quote, no backslash and neither U+2028 nor U+2029. -/
def needsNoEscape (s : GoString) : Bool :=
  ValidString s && s.all (fun b => decide (0x20 ≤ b ∧ b ≠ 0x22 ∧ b ≠ 0x5C)) &&
    !Contains s [0xE2, 0x80, 0xA8] && !Contains s [0xE2, 0x80, 0xA9]

/-- The log line as the specification writes it for an empty MDC: the five
members in the order ts, crit, id, mdc, msg, the strings copied between
quotes, and one newline. -/
def expectedLine (ts : Int) (name p m : GoString) : GoString :=
  bytesOf "\x7b\"ts\":" ++ AppendInt ts ++ bytesOf ",\"crit\":\"" ++ name ++
  bytesOf "\",\"id\":\"" ++ p ++ bytesOf "\",\"mdc\":\x7b\x7d,\"msg\":\"" ++ m ++
  bytesOf "\"\x7d\n"

/-! ## Properties of the MDC store -/

theorem lookupEntry_insertEntry_self {β : Type} (key : GoString) (value : β)
    (es : List (GoString × β)) :
    lookupEntry key (insertEntry key value es) = some value := by
  induction es with
  | nil => simp [insertEntry, lookupEntry]
  | cons e rest ih =>
    obtain ⟨k, v⟩ := e
    simp only [insertEntry]
    split
    · simp [lookupEntry]
    · split
      · simp [lookupEntry]
      · rename_i _ hne
        simp [lookupEntry, hne, ih]

theorem lookupEntry_insertEntry_other {β : Type} (key : GoString) (value : β)
    (other : GoString) (es : List (GoString × β)) (h : other ≠ key) :
    lookupEntry other (insertEntry key value es) = lookupEntry other es := by
  induction es with
  | nil => simp [insertEntry, lookupEntry, h]
  | cons e rest ih =>
    obtain ⟨k, v⟩ := e
    simp only [insertEntry]
    split
    · simp [lookupEntry, h]
    · split
      · rename_i _ heq
        subst heq
        simp [lookupEntry, h]
      · simp [lookupEntry, ih]

theorem lookupEntry_eraseEntry_self (key : GoString) (es : Entries) :
    lookupEntry key (eraseEntry key es) = none := by
  induction es with
  | nil => simp [eraseEntry, lookupEntry]
  | cons e rest ih =>
    obtain ⟨k, v⟩ := e
    by_cases hk : k = key
    · simpa [eraseEntry, hk] using ih
    · have hk2 : ¬ key = k := fun h => hk h.symm
      simpa [eraseEntry, hk, lookupEntry, hk2] using ih

theorem lookupEntry_eraseEntry_other (key other : GoString) (es : Entries)
    (h : other ≠ key) :
    lookupEntry other (eraseEntry key es) = lookupEntry other es := by
  induction es with
  | nil => simp [eraseEntry, lookupEntry]
  | cons e rest ih =>
    obtain ⟨k, v⟩ := e
    by_cases hk : k = key
    · have hk2 : ¬ other = k := fun h2 => h (h2.trans hk)
      simpa [eraseEntry, hk, lookupEntry, hk2, h] using ih
    · by_cases ho : other = k
      · simp [eraseEntry, hk, lookupEntry, ho]
      · simpa [eraseEntry, hk, lookupEntry, ho] using ih

theorem eraseEntry_of_lookupEntry_none (key : GoString) (es : Entries)
    (h : lookupEntry key es = none) : eraseEntry key es = es := by
  induction es with
  | nil => simp [eraseEntry]
  | cons e rest ih =>
    obtain ⟨k, v⟩ := e
    by_cases hk : key = k
    · simp [lookupEntry, hk] at h
    · have hk2 : ¬ k = key := fun h2 => hk h2.symm
      simp only [lookupEntry, hk, if_false] at h
      have hrest := ih h
      simp only [eraseEntry] at hrest ⊢
      rw [List.filter_cons]
      simp only [ne_eq, hk2, not_false_eq_true, decide_True, if_true]
      rw [hrest]

/-- C5: `MdcAdd(k, v)` followed by `MdcGet(k)` returns `(v, true)` on every
store, whether or not `k` was present before (the old value is overwritten). -/
theorem mdcAdd_then_mdcGet (l : MdcLogger) (k v : GoString) :
    MdcGet (MdcAdd l k v) k = (v, true) ∧
    (∀ old : GoString, MdcGet (MdcAdd (MdcAdd l k old) k v) k = (v, true)) := by
  simp [MdcGet, MdcAdd, lookupEntry_insertEntry_self]

/-- C6: `MdcRemove(k)` followed by `MdcGet(k)` returns the empty string and
false; removing an absent key leaves the logger exactly as it was; the entries
of all other keys are unchanged in every case. -/
theorem mdcRemove_then_mdcGet (l : MdcLogger) (k : GoString) :
    MdcGet (MdcRemove l k) k = ([], false) ∧
    ((MdcGet l k).2 = false → MdcRemove l k = l) ∧
    (∀ other : GoString, other ≠ k → MdcGet (MdcRemove l k) other = MdcGet l other) := by
  refine ⟨?_, ?_, ?_⟩
  · simp [MdcGet, MdcRemove, lookupEntry_eraseEntry_self]
  · intro h
    have hnone : lookupEntry k l.mdc = none := by
      cases hl : lookupEntry k l.mdc with
      | none => rfl
      | some val => simp [MdcGet, hl] at h
    simp [MdcRemove, eraseEntry_of_lookupEntry_none k l.mdc hnone]
  · intro other hne
    simp [MdcGet, MdcRemove, lookupEntry_eraseEntry_other k other l.mdc hne]

/-- C7: after `MdcClean` the store is the empty map, so `MdcGet` finds no key,
and the threshold, the identity, the sink and the started flag are unchanged. -/
theorem mdcClean_empties_store (l : MdcLogger) :
    (MdcClean l).mdc = [] ∧
    (∀ k : GoString, MdcGet (MdcClean l) k = ([], false)) ∧
    (∀ k v : GoString, MdcGet (MdcClean (MdcAdd l k v)) k = ([], false)) ∧
    LevelGet (MdcClean l) = LevelGet l ∧
    (MdcClean l).proc = l.proc ∧
    (MdcClean l).writer = l.writer ∧
    (MdcClean l).init_done = l.init_done := by
  simp [MdcClean, MdcGet, lookupEntry, LevelGet]

/-- C8: construction returns no error and a logger with threshold DEBUG, an
empty MDC and the given identity; `LevelGet` returns what `LevelSet` stored,
and DEBUG on a fresh logger. -/
theorem initLogger_defaults_and_level_roundtrip (stdout proc : GoString) :
    (initLogger proc stdout).2 = none ∧
    (InitLogger stdout proc).2 = none ∧
    (InitLogger stdout proc).1.level = DEBUG ∧
    (InitLogger stdout proc).1.mdc = [] ∧
    (InitLogger stdout proc).1.proc = proc ∧
    LevelGet (InitLogger stdout proc).1 = DEBUG ∧
    (∀ (l : MdcLogger) (x : Level), LevelGet (LevelSet l x) = x) := by
  simp [initLogger, InitLogger, LevelGet, LevelSet]

/-- C9: `levelString` gives ERROR, WARNING, INFO and DEBUG for the four levels
and the empty string for every other integer; the four names are pairwise
distinct. -/
theorem levelString_table :
    levelString ERR = bytesOf "ERROR" ∧
    levelString WARN = bytesOf "WARNING" ∧
    levelString INFO = bytesOf "INFO" ∧
    levelString DEBUG = bytesOf "DEBUG" ∧
    (∀ level : Level, (level < 1 ∨ 4 < level) → levelString level = []) ∧
    [levelString ERR, levelString WARN, levelString INFO, levelString DEBUG].Nodup := by
  refine ⟨by decide, by decide, by decide, by decide, ?_, by decide⟩
  intro level h
  have h1 : level ≠ ERR := by intro he; subst he; revert h; decide
  have h2 : level ≠ WARN := by intro he; subst he; revert h; decide
  have h3 : level ≠ INFO := by intro he; subst he; revert h; decide
  have h4 : level ≠ DEBUG := by intro he; subst he; revert h; decide
  simp [levelString, h1, h2, h3, h4, bytesOf]

/-! ## Properties of the UTF-8 decoder -/

theorem first_cases (s0 : Nat) :
    (s0 < 0x80 ∧ first s0 = (1, 0, 0)) ∨
    (0x80 ≤ s0 ∧ (first s0).1 = 0) ∨
    (0xC2 ≤ s0 ∧ s0 ≤ 0xDF ∧ first s0 = (2, 0x80, 0xBF)) ∨
    (0xE0 ≤ s0 ∧ s0 ≤ 0xEF ∧ (first s0).1 = 3 ∧ 0x80 ≤ (first s0).2.1 ∧ (first s0).2.2 ≤ 0xBF ∧
      (s0 = 0xE0 → (first s0).2.1 = 0xA0) ∧ (s0 = 0xED → (first s0).2.2 = 0x9F) ∧
      (s0 ≠ 0xE0 → (first s0).2.1 = 0x80) ∧ (s0 ≠ 0xED → (first s0).2.2 = 0xBF)) ∨
    (0xF0 ≤ s0 ∧ s0 ≤ 0xF4 ∧ (first s0).1 = 4 ∧ 0x80 ≤ (first s0).2.1 ∧ (first s0).2.2 ≤ 0xBF ∧
      (s0 = 0xF0 → (first s0).2.1 = 0x90) ∧ (s0 = 0xF4 → (first s0).2.2 = 0x8F) ∧
      (s0 ≠ 0xF0 → (first s0).2.1 = 0x80) ∧ (s0 ≠ 0xF4 → (first s0).2.2 = 0xBF)) := by
  unfold first
  split_ifs <;> simp <;> omega

/-- The shapes of a decoded rune. -/
theorem decode_cases (s0 : Nat) (t : GoString) :
    (s0 < 0x80 ∧ DecodeRuneInString (s0 :: t) = (s0, 1)) ∨
    (0x80 ≤ s0 ∧ DecodeRuneInString (s0 :: t) = (RuneError, 1)) ∨
    (∃ s1 r, t = s1 :: r ∧
      DecodeRuneInString (s0 :: t) = ((s0 % 32) * 64 + s1 % 64, 2) ∧
      0xC2 ≤ s0 ∧ s0 ≤ 0xDF ∧ 0x80 ≤ s1 ∧ s1 ≤ 0xBF) ∨
    (∃ s1 s2 r, t = s1 :: s2 :: r ∧
      DecodeRuneInString (s0 :: t) = ((s0 % 16) * 4096 + (s1 % 64) * 64 + s2 % 64, 3) ∧
      0xE0 ≤ s0 ∧ s0 ≤ 0xEF ∧ 0x80 ≤ s1 ∧ s1 ≤ 0xBF ∧ (s0 = 0xE0 → 0xA0 ≤ s1) ∧
      (s0 = 0xED → s1 ≤ 0x9F) ∧ 0x80 ≤ s2 ∧ s2 ≤ 0xBF) ∨
    (∃ s1 s2 s3 r, t = s1 :: s2 :: s3 :: r ∧
      DecodeRuneInString (s0 :: t) =
        ((s0 % 8) * 262144 + (s1 % 64) * 4096 + (s2 % 64) * 64 + s3 % 64, 4) ∧
      0xF0 ≤ s0 ∧ s0 ≤ 0xF4 ∧ 0x80 ≤ s1 ∧ s1 ≤ 0xBF ∧ (s0 = 0xF0 → 0x90 ≤ s1) ∧
      (s0 = 0xF4 → s1 ≤ 0x8F) ∧ 0x80 ≤ s2 ∧ s2 ≤ 0xBF ∧ 0x80 ≤ s3 ∧ s3 ≤ 0xBF) := by
  rcases first_cases s0 with h | h | h | h | h
  · left
    simp [DecodeRuneInString, h.2, h.1]
  · right; left
    simp [DecodeRuneInString, h.2, h.1]
  · obtain ⟨h1, h2, h3⟩ := h
    rcases t with _ | ⟨s1, r⟩
    · right; left
      simp [DecodeRuneInString, h3]; omega
    · by_cases hs : s1 < 0x80 ∨ 0xBF < s1
      · right; left
        simp [DecodeRuneInString, h3, hs]; omega
      · right; right; left
        refine ⟨s1, r, rfl, ?_, by omega, by omega, by omega, by omega⟩
        simp [DecodeRuneInString, h3, hs]
  · obtain ⟨h1, h2, h3, h4, h5, h6, h7, h8, h9⟩ := h
    rcases t with _ | ⟨s1, _ | ⟨s2, r⟩⟩
    · right; left
      simp [DecodeRuneInString, h3]; omega
    · right; left
      simp [DecodeRuneInString, h3]; omega
    · by_cases hs : s1 < (first s0).2.1 ∨ (first s0).2.2 < s1
      · right; left
        simp [DecodeRuneInString, h3, hs]; omega
      · by_cases hs2 : s2 < 0x80 ∨ 0xBF < s2
        · right; left
          simp [DecodeRuneInString, h3, hs, hs2]; omega
        · right; right; right; left
          refine ⟨s1, s2, r, rfl, ?_, by omega, by omega, by omega, by omega, ?_, ?_,
            by omega, by omega⟩
          · simp [DecodeRuneInString, h3, hs, hs2]
          · intro he; have := h6 he; omega
          · intro he; have := h7 he; omega
  · obtain ⟨h1, h2, h3, h4, h5, h6, h7, h8, h9⟩ := h
    rcases t with _ | ⟨s1, _ | ⟨s2, _ | ⟨s3, r⟩⟩⟩
    · right; left
      simp [DecodeRuneInString, h3]; omega
    · right; left
      simp [DecodeRuneInString, h3]; omega
    · right; left
      simp [DecodeRuneInString, h3]; omega
    · by_cases hs : s1 < (first s0).2.1 ∨ (first s0).2.2 < s1
      · right; left
        simp [DecodeRuneInString, h3, hs]; omega
      · by_cases hs2 : s2 < 0x80 ∨ 0xBF < s2
        · right; left
          simp [DecodeRuneInString, h3, hs, hs2]; omega
        · by_cases hs3 : s3 < 0x80 ∨ 0xBF < s3
          · right; left
            simp [DecodeRuneInString, h3, hs, hs2, hs3]; omega
          · right; right; right; right
            refine ⟨s1, s2, s3, r, rfl, ?_, by omega, by omega, by omega, by omega, ?_, ?_,
              by omega, by omega, by omega, by omega⟩
            · simp [DecodeRuneInString, h3, hs, hs2, hs3]
            · intro he; have := h6 he; omega
            · intro he; have := h7 he; omega

/-! ## Properties of the JSON string encoder -/

theorem decode_size_pos (s0 : Nat) (t : GoString) :
    1 ≤ (DecodeRuneInString (s0 :: t)).2 := by
  rcases decode_cases s0 t with ⟨_, h⟩ | ⟨_, h⟩ | ⟨s1, r, _, h, _⟩ | ⟨s1, s2, r, _, h, _⟩ |
    ⟨s1, s2, s3, r, _, h, _⟩ <;> rw [h] <;> simp

theorem decode_size_le (s0 : Nat) (t : GoString) :
    (DecodeRuneInString (s0 :: t)).2 ≤ (s0 :: t).length := by
  rcases decode_cases s0 t with ⟨_, h⟩ | ⟨_, h⟩ | ⟨s1, r, ht, h, _⟩ | ⟨s1, s2, r, ht, h, _⟩ |
    ⟨s1, s2, s3, r, ht, h, _⟩
  · rw [h]; simp
  · rw [h]; simp
  · rw [h]; simp [ht]
  · rw [h]; simp [ht]
  · rw [h]; simp [ht]

theorem stringLoop_fuel (fuel1 : Nat) : ∀ (fuel2 : Nat) (s : GoString),
    s.length ≤ fuel1 → s.length ≤ fuel2 → stringLoop fuel1 s = stringLoop fuel2 s := by
  induction fuel1 with
  | zero =>
    intro fuel2 s h1 _
    have hs : s = [] := List.eq_nil_of_length_eq_zero (by omega)
    subst hs
    cases fuel2 <;> simp [stringLoop]
  | succ n ih =>
    intro fuel2 s h1 h2
    cases s with
    | nil => cases fuel2 <;> simp [stringLoop]
    | cons b t =>
      cases fuel2 with
      | zero => simp at h2
      | succ m =>
        simp only [List.length_cons] at h1 h2
        have hpos := decode_size_pos b t
        have hdrop : ((b :: t).drop (DecodeRuneInString (b :: t)).2).length ≤ t.length := by
          simp only [List.length_drop, List.length_cons]; omega
        simp only [stringLoop]
        rw [ih m t (by omega) (by omega),
          ih m ((b :: t).drop (DecodeRuneInString (b :: t)).2) (by omega) (by omega)]

/-- The body of a JSON string literal: the escaped bytes between the quotes. -/
theorem encodeString_eq (s : GoString) :
    encodeString s = 0x22 :: stringLoop s.length s ++ [0x22] := rfl

theorem stringLoop_nil (fuel : Nat) : stringLoop fuel [] = [] := by
  cases fuel <;> simp [stringLoop]

theorem stringLoop_ascii (b : Nat) (t : GoString) (hb : b < 0x80) :
    stringLoop (b :: t).length (b :: t) =
      (if safeSet b then [b] else 0x5C :: escapeByte b) ++ stringLoop t.length t := by
  simp only [List.length_cons, stringLoop, hb, if_true]
  split <;> simp

theorem stringLoop_bad (b : Nat) (t : GoString) (hb : 0x80 ≤ b)
    (hd : DecodeRuneInString (b :: t) = (RuneError, 1)) :
    stringLoop (b :: t).length (b :: t) =
      [0x5C, 0x75, 0x66, 0x66, 0x66, 0x64] ++ stringLoop t.length t := by
  have hb2 : ¬ b < 0x80 := by omega
  simp [stringLoop, hb2, hd]

theorem stringLoop_multi (b : Nat) (t : GoString) (hb : 0x80 ≤ b)
    (hd : 2 ≤ (DecodeRuneInString (b :: t)).2) :
    stringLoop (b :: t).length (b :: t) =
      (if (DecodeRuneInString (b :: t)).1 = 0x2028 ∨ (DecodeRuneInString (b :: t)).1 = 0x2029
        then [0x5C, 0x75, 0x32, 0x30, 0x32, hex ((DecodeRuneInString (b :: t)).1 % 16)]
        else (b :: t).take (DecodeRuneInString (b :: t)).2) ++
      stringLoop ((b :: t).drop (DecodeRuneInString (b :: t)).2).length
        ((b :: t).drop (DecodeRuneInString (b :: t)).2) := by
  have hb2 : ¬ b < 0x80 := by omega
  have h1 : ¬ ((DecodeRuneInString (b :: t)).1 = RuneError ∧ (DecodeRuneInString (b :: t)).2 = 1) := by
    intro h; omega
  have hdrop : ((b :: t).drop (DecodeRuneInString (b :: t)).2).length ≤ t.length := by
    simp only [List.length_drop, List.length_cons]; omega
  simp only [List.length_cons, stringLoop, hb2, if_false, h1]
  rw [stringLoop_fuel t.length _ _ hdrop (le_refl _)]
  split <;> rfl

/-- Induction over a string one decoded rune at a time. -/
theorem rune_induction (P : GoString → Prop) (hnil : P [])
    (hascii : ∀ b t, b < 0x80 → P t → P (b :: t))
    (hbad : ∀ b t, 0x80 ≤ b → DecodeRuneInString (b :: t) = (RuneError, 1) → P t → P (b :: t))
    (hmulti : ∀ b t, 0x80 ≤ b → 2 ≤ (DecodeRuneInString (b :: t)).2 →
      P ((b :: t).drop (DecodeRuneInString (b :: t)).2) → P (b :: t)) :
    ∀ s, P s := by
  have key : ∀ (n : Nat) (s : GoString), s.length = n → P s := by
    intro n
    induction n using Nat.strong_induction_on with
    | _ n ih =>
      intro s hn
      cases s with
      | nil => exact hnil
      | cons b t =>
        subst hn
        rcases decode_cases b t with ⟨hb, _⟩ | ⟨hb, h⟩ | ⟨s1, r, ht, h, hb, _⟩ |
            ⟨s1, s2, r, ht, h, hb, _⟩ | ⟨s1, s2, s3, r, ht, h, hb, _⟩
        · exact hascii b t hb (ih t.length (by simp) t rfl)
        · exact hbad b t hb h (ih t.length (by simp) t rfl)
        · refine hmulti b t (by omega) (by rw [h]) ?_
          exact ih _ (by rw [h]; simp [ht]; omega) _ rfl
        · refine hmulti b t (by omega) (by rw [h]; simp) ?_
          exact ih _ (by rw [h]; simp [ht]; omega) _ rfl
        · refine hmulti b t (by omega) (by rw [h]; simp) ?_
          exact ih _ (by rw [h]; simp [ht]; omega) _ rfl
  exact fun s => key s.length s rfl

theorem decode_take_ge (b : Nat) (t : GoString) (hb : 0x80 ≤ b)
    (hd : 2 ≤ (DecodeRuneInString (b :: t)).2) :
    ∀ x ∈ (b :: t).take (DecodeRuneInString (b :: t)).2, 0x80 ≤ x := by
  rcases decode_cases b t with ⟨hb1, _⟩ | ⟨_, h⟩ | ⟨s1, r, ht, h, _, _, _, _⟩ |
    ⟨s1, s2, r, ht, h, _, _, _, _, _, _, _, _⟩ |
    ⟨s1, s2, s3, r, ht, h, _, _, _, _, _, _, _, _, _, _⟩
  · omega
  · rw [h] at hd; simp at hd
  · rw [h, ht]; intro x hx; simp at hx; omega
  · rw [h, ht]; intro x hx; simp at hx; omega
  · rw [h, ht]; intro x hx; simp at hx; omega

theorem hex_ge (n : Nat) : 48 ≤ hex n := by
  unfold hex; split <;> omega

theorem escapeByte_ge (b : Nat) (h80 : b < 0x80) :
    ∀ x ∈ escapeByte b, 0x20 ≤ x := by
  intro x hx
  unfold escapeByte at hx
  have := hex_ge (b / 16)
  have := hex_ge (b % 16)
  split_ifs at hx with h1 h2 h3 h4 <;> simp at hx <;> omega

/-- Every byte between the quotes of an encoded string is printable: no control
byte, in particular no newline, is written raw. -/
theorem stringLoop_ge (s : GoString) : ∀ x ∈ stringLoop s.length s, 0x20 ≤ x := by
  induction s using rune_induction with
  | hnil => simp [stringLoop]
  | hascii b t hb ih =>
    rw [stringLoop_ascii b t hb]
    intro x hx
    rw [List.mem_append] at hx
    rcases hx with hx | hx
    · by_cases hs : safeSet b = true
      · simp [hs] at hx
        simp [safeSet] at hs
        omega
      · simp only [hs] at hx
        simp at hx
        rcases hx with hx | hx
        · omega
        · exact escapeByte_ge b hb x hx
    · exact ih x hx
  | hbad b t hb hd ih =>
    rw [stringLoop_bad b t hb hd]
    intro x hx
    rw [List.mem_append] at hx
    rcases hx with hx | hx
    · simp at hx; omega
    · exact ih x hx
  | hmulti b t hb hd ih =>
    rw [stringLoop_multi b t hb hd]
    intro x hx
    rw [List.mem_append] at hx
    rcases hx with hx | hx
    · split_ifs at hx
      · have := hex_ge ((DecodeRuneInString (b :: t)).1 % 16)
        simp at hx; omega
      · have := decode_take_ge b t hb hd x hx
        omega
    · exact ih x hx

theorem encodeString_ge (s : GoString) : ∀ x ∈ encodeString s, 0x20 ≤ x := by
  intro x hx
  unfold encodeString at hx
  rcases List.mem_cons.1 hx with hx | hx
  · omega
  · rcases List.mem_append.1 hx with hx | hx
    · exact stringLoop_ge s x hx
    · simp at hx; omega

/-! ## The log line -/

theorem formatBits_ge (fuel : Nat) : ∀ (n : Nat) (acc : GoString),
    (∀ x ∈ acc, 0x20 ≤ x) → ∀ x ∈ formatBits fuel n acc, 0x20 ≤ x := by
  induction fuel with
  | zero => intro n acc hacc; simpa [formatBits] using hacc
  | succ k ih =>
    intro n acc hacc
    simp only [formatBits]
    split
    · intro x hx
      rcases List.mem_cons.1 hx with hx | hx
      · omega
      · exact hacc x hx
    · apply ih
      intro x hx
      rcases List.mem_cons.1 hx with hx | hx
      · omega
      · exact hacc x hx

theorem AppendInt_ge (i : Int) : ∀ x ∈ AppendInt i, 0x20 ≤ x := by
  intro x hx
  unfold AppendInt at hx
  split at hx
  · rcases List.mem_cons.1 hx with hx | hx
    · omega
    · exact formatBits_ge _ _ [] (by simp) x hx
  · exact formatBits_ge _ _ [] (by simp) x hx

theorem encodeMembers_ge (m : Entries) : ∀ x ∈ encodeMembers m, 0x20 ≤ x := by
  induction m with
  | nil => simp [encodeMembers]
  | cons e rest ih =>
    obtain ⟨k, v⟩ := e
    cases rest with
    | nil =>
      simp only [encodeMembers, List.forall_mem_append, List.forall_mem_cons]
      refine ⟨encodeString_ge k, by omega, encodeString_ge v⟩
    | cons e2 rest2 =>
      simp only [encodeMembers, List.forall_mem_append, List.forall_mem_cons]
      refine ⟨⟨encodeString_ge k, by omega, encodeString_ge v⟩, by omega, ih⟩

theorem marshalLogEntry_ge (e : logEntry) : ∀ x ∈ marshalLogEntry e, 0x20 ≤ x := by
  simp only [marshalLogEntry, encodeMap, List.forall_mem_append, List.forall_mem_cons]
  repeat' constructor
  all_goals first
    | exact encodeString_ge _
    | exact AppendInt_ge _
    | exact encodeMembers_ge _
    | decide

/-- The names of the levels pass the string encoder unchanged. -/
theorem encodeString_levelString (level : Level) :
    encodeString (levelString level) = 0x22 :: levelString level ++ [0x22] := by
  unfold levelString
  split_ifs <;> decide

theorem crit_infix_marshalLogEntry (e : logEntry) (level : Level)
    (h : e.Crit = levelString level) :
    (bytesOf "\"crit\":\"" ++ levelString level ++ [0x22]) <:+: marshalLogEntry e := by
  refine ⟨0x7B :: bytesOf "\"ts\":" ++ AppendInt e.Ts ++ [0x2C],
    bytesOf ",\"id\":" ++ encodeString e.Id ++ bytesOf ",\"mdc\":" ++ encodeMap e.Mdc ++
      bytesOf ",\"msg\":" ++ encodeString e.Msg ++ [0x7D], ?_⟩
  have h1 : bytesOf ",\"crit\":" = [0x2C] ++ bytesOf "\"crit\":" := by decide
  have h2 : bytesOf "\"crit\":\"" = bytesOf "\"crit\":" ++ [0x22] := by decide
  simp only [marshalLogEntry, h, encodeString_levelString, h1, h2, List.append_assoc,
    List.cons_append, List.nil_append]

/-- C1: when the threshold is at least the level the call appends exactly one
line to the sink, a line that holds the `crit` member with the name of the
level, and changes nothing else; when the threshold is below the level the
logger, its sink included, is unchanged. -/
theorem log_writes_one_line_iff_level_passes {α : Type}
    (verbs : GoString → List α → GoString) (l : MdcLogger) (now : Int) (level : Level)
    (formatMsg : GoString) (a : List α) :
    (level ≤ l.level →
      ∃ line : GoString,
        Log verbs l now level formatMsg a = { l with writer := l.writer ++ (line ++ [0x0A]) } ∧
        0x0A ∉ line ∧
        (bytesOf "\"crit\":\"" ++ levelString level ++ [0x22]) <:+: line) ∧
    (l.level < level → Log verbs l now level formatMsg a = l) := by
  constructor
  · intro hle
    have hnot : ¬ l.level < level := not_lt.mpr hle
    refine ⟨(formatLog l now level (Sprintf verbs formatMsg a)).1.dropLast, ?_, ?_, ?_⟩
    · simp [Log, hnot, formatLog, Encode]
    · intro hmem
      simp only [formatLog, Encode, List.dropLast_concat] at hmem
      have := marshalLogEntry_ge _ _ hmem
      omega
    · simp only [formatLog, Encode, List.dropLast_concat]
      exact crit_infix_marshalLogEntry _ level rfl
  · intro hlt
    simp [Log, hlt]

theorem Index_isSome_iff (p : GoString) : ∀ s : GoString, (Index s p).isSome = true ↔ p <:+: s := by
  intro s
  induction s with
  | nil =>
    unfold Index
    by_cases hp : p.isPrefixOf [] = true
    · simp [hp, List.isPrefixOf_iff_prefix.1 hp |>.isInfix]
    · have hp2 : ¬ p <+: [] := fun h => hp (List.isPrefixOf_iff_prefix.2 h)
      simp only [hp, if_false]
      simp only [List.prefix_nil] at hp2
      simp [hp2]
  | cons b t ih =>
    unfold Index
    rw [List.infix_cons_iff]
    by_cases hp : p.isPrefixOf (b :: t) = true
    · simp [hp, List.isPrefixOf_iff_prefix.1 hp]
    · have hp2 : ¬ p <+: b :: t := fun h => hp (List.isPrefixOf_iff_prefix.2 h)
      simp only [hp, Bool.false_eq_true, if_false, Option.isSome_map', hp2, false_or]
      exact ih

/-- The model of `strings.Contains` decides whether `p` occurs in `s`. -/
theorem Contains_iff_occurs (s p : GoString) : Contains s p = true ↔ p <:+: s := by
  unfold Contains
  exact Index_isSome_iff p s

theorem validLoop_fuel (fuel1 : Nat) : ∀ (fuel2 : Nat) (s : GoString),
    s.length ≤ fuel1 → s.length ≤ fuel2 → validLoop fuel1 s = validLoop fuel2 s := by
  induction fuel1 with
  | zero =>
    intro fuel2 s h1 _
    have hs : s = [] := List.eq_nil_of_length_eq_zero (by omega)
    subst hs
    cases fuel2 <;> simp [validLoop]
  | succ n ih =>
    intro fuel2 s h1 h2
    cases s with
    | nil => cases fuel2 <;> simp [validLoop]
    | cons b t =>
      cases fuel2 with
      | zero => simp at h2
      | succ m =>
        simp only [List.length_cons] at h1 h2
        have hpos := decode_size_pos b t
        have hdrop : ((b :: t).drop (DecodeRuneInString (b :: t)).2).length ≤ t.length := by
          simp only [List.length_drop, List.length_cons]; omega
        simp only [validLoop]
        rw [ih m ((b :: t).drop (DecodeRuneInString (b :: t)).2) (by omega) (by omega)]

theorem ValidString_cons (b : Nat) (t : GoString) :
    ValidString (b :: t) =
      (if (DecodeRuneInString (b :: t)).1 = RuneError ∧ (DecodeRuneInString (b :: t)).2 = 1
        then false else ValidString ((b :: t).drop (DecodeRuneInString (b :: t)).2)) := by
  have hpos := decode_size_pos b t
  have hdrop : ((b :: t).drop (DecodeRuneInString (b :: t)).2).length ≤ t.length := by
    simp only [List.length_drop, List.length_cons]; omega
  simp only [ValidString, List.length_cons, validLoop]
  rw [validLoop_fuel t.length _ _ hdrop (le_refl _)]

/-- A string without a byte or rune the encoder escapes is written as it is. -/
theorem stringLoop_of_needsNoEscape (s : GoString) :
    ValidString s = true → (∀ b ∈ s, 0x20 ≤ b ∧ b ≠ 0x22 ∧ b ≠ 0x5C) →
    ¬ [0xE2, 0x80, 0xA8] <:+: s → ¬ [0xE2, 0x80, 0xA9] <:+: s →
    stringLoop s.length s = s := by
  induction s using rune_induction with
  | hnil => intros; simp [stringLoop]
  | hascii b t hb ih =>
    intro hv hall h8 h9
    have hd : DecodeRuneInString (b :: t) = (b, 1) := by
      rcases decode_cases b t with ⟨_, h⟩ | ⟨h, _⟩ | ⟨_, _, _, _, h, _⟩ | ⟨_, _, _, _, _, h, _⟩ |
        ⟨_, _, _, _, _, _, h, _⟩
      · exact h
      all_goals omega
    rw [ValidString_cons, hd] at hv
    simp only [List.drop_succ_cons, List.drop_zero] at hv
    have hv2 : ValidString t = true := by
      split at hv
      · simp at hv
      · exact hv
    have hbs := hall b (List.mem_cons_self _ _)
    have hsafe : safeSet b = true := by simp [safeSet]; omega
    rw [stringLoop_ascii b t hb]
    simp only [hsafe, if_true, List.singleton_append]
    rw [ih hv2 (fun x hx => hall x (List.mem_cons_of_mem _ hx))
      (fun h => h8 (List.infix_cons h)) (fun h => h9 (List.infix_cons h))]
  | hbad b t hb hd ih =>
    intro hv _ _ _
    rw [ValidString_cons, hd] at hv
    simp at hv
  | hmulti b t hb hd ih =>
    intro hv hall h8 h9
    have hsuf : (b :: t).drop (DecodeRuneInString (b :: t)).2 <:+ b :: t := List.drop_suffix _ _
    rw [ValidString_cons] at hv
    have hne : ¬ ((DecodeRuneInString (b :: t)).1 = RuneError ∧
        (DecodeRuneInString (b :: t)).2 = 1) := by
      intro h; omega
    simp only [hne, if_false] at hv
    have ih2 := ih hv (fun x hx => hall x (hsuf.subset hx))
      (fun h => h8 (h.trans hsuf.isInfix)) (fun h => h9 (h.trans hsuf.isInfix))
    rw [stringLoop_multi b t hb hd, ih2]
    have hc : ¬ ((DecodeRuneInString (b :: t)).1 = 0x2028 ∨
        (DecodeRuneInString (b :: t)).1 = 0x2029) := by
      rcases decode_cases b t with ⟨h, _⟩ | ⟨_, h⟩ | ⟨s1, r, ht, h, _, _, _, _⟩ |
        ⟨s1, s2, r, ht, h, _, _, _, _, _, _, _, _⟩ |
        ⟨s1, s2, s3, r, ht, h, _, _, _, _, _, _, _, _, _, _⟩
      · omega
      · rw [h] at hd; simp at hd
      · rw [h]; simp only
        have e0 : b % 32 = b - 192 := by omega
        have e1 : s1 % 64 = s1 - 128 := by omega
        rw [e0, e1]; omega
      · rw [h]; simp only
        have e0 : b % 16 = b - 224 := by omega
        have e1 : s1 % 64 = s1 - 128 := by omega
        have e2 : s2 % 64 = s2 - 128 := by omega
        rw [e0, e1, e2]
        intro hcc
        rcases hcc with hcc | hcc
        · apply h8
          have h0 : b = 0xE2 := by omega
          have h1 : s1 = 0x80 := by omega
          have h2 : s2 = 0xA8 := by omega
          subst h0 h1 h2 ht
          exact ⟨[], r, by simp⟩
        · apply h9
          have h0 : b = 0xE2 := by omega
          have h1 : s1 = 0x80 := by omega
          have h2 : s2 = 0xA9 := by omega
          subst h0 h1 h2 ht
          exact ⟨[], r, by simp⟩
      · rw [h]; simp only
        have e0 : b % 8 = b - 240 := by omega
        have e1 : s1 % 64 = s1 - 128 := by omega
        have e2 : s2 % 64 = s2 - 128 := by omega
        have e3 : s3 % 64 = s3 - 128 := by omega
        rw [e0, e1, e2, e3]; omega
    simp only [hc, if_false]
    exact List.take_append_drop _ _

theorem encodeString_of_needsNoEscape (s : GoString) (h : needsNoEscape s = true) :
    encodeString s = 0x22 :: s ++ [0x22] := by
  simp only [needsNoEscape, Bool.and_eq_true, Bool.not_eq_true', List.all_eq_true,
    decide_eq_true_eq] at h
  obtain ⟨⟨⟨hv, hall⟩, h8⟩, h9⟩ := h
  have h8i : ¬ [0xE2, 0x80, 0xA8] <:+: s := by
    intro hi
    have hc := (Contains_iff_occurs _ _).2 hi
    rw [h8] at hc
    cases hc
  have h9i : ¬ [0xE2, 0x80, 0xA9] <:+: s := by
    intro hi
    have hc := (Contains_iff_occurs _ _).2 hi
    rw [h9] at hc
    cases hc
  rw [encodeString, stringLoop_of_needsNoEscape s hv hall h8i h9i]

theorem Sprintf_of_no_verb {α : Type} (verbs : GoString → List α → GoString) (m : GoString)
    (h : 0x25 ∉ m) : Sprintf verbs m [] = m := by
  have hall : ∀ c ∈ m, (decide (c ≠ 0x25)) = true := by
    intro c hc
    simp only [decide_eq_true_eq]
    intro he; exact h (he ▸ hc)
  have ht : m.takeWhile (fun c => decide (c ≠ 0x25)) = m := List.takeWhile_eq_self_iff.2 hall
  have hd : m.dropWhile (fun c => decide (c ≠ 0x25)) = [] := List.dropWhile_eq_nil_iff.2 hall
  simp only [Sprintf, ht, hd]
  simp

theorem Log_plain_line {α : Type} (verbs : GoString → List α → GoString) (l : MdcLogger)
    (now : Int) (level : Level) (m : GoString)
    (hmdc : l.mdc = []) (hle : level ≤ l.level) (hp : needsNoEscape l.proc = true)
    (hm : needsNoEscape m = true) (hverb : 0x25 ∉ m) :
    (Log verbs l now level m []).writer =
      l.writer ++ expectedLine (getTime now) (levelString level) l.proc m := by
  have hnot : ¬ l.level < level := not_lt.mpr hle
  have e1 : bytesOf ",\"crit\":\"" = bytesOf ",\"crit\":" ++ [0x22] := by decide
  have e2 : bytesOf "\",\"id\":\"" = 0x22 :: bytesOf ",\"id\":" ++ [0x22] := by decide
  have e3 : bytesOf "\",\"mdc\":\x7b\x7d,\"msg\":\"" =
      0x22 :: bytesOf ",\"mdc\":" ++ [0x7B, 0x7D] ++ bytesOf ",\"msg\":" ++ [0x22] := by decide
  have e4 : bytesOf "\"\x7d\n" = [0x22, 0x7D, 0x0A] := by decide
  have e5 : bytesOf "\x7b\"ts\":" = 0x7B :: bytesOf "\"ts\":" := by decide
  simp only [Log, hnot, if_false, formatLog, Encode, marshalLogEntry, encodeMap, hmdc,
    encodeMembers, Sprintf_of_no_verb verbs m hverb, encodeString_levelString,
    encodeString_of_needsNoEscape _ hp, encodeString_of_needsNoEscape _ hm, expectedLine,
    e1, e2, e3, e4, e5, List.append_assoc, List.cons_append, List.nil_append]

/-- C2 (as amended): on a logger with an empty MDC and threshold DEBUG, whose
identity needs no JSON escaping, a message without format verb that needs no
JSON escaping is written by `Debug`, `Info`, `Warning`, `Error` and `Log` as
the members ts, crit, id, mdc, msg in this order, identity and message copied
between quotes, followed by one newline. -/
theorem plain_message_line {α : Type} (verbs : GoString → List α → GoString) (l : MdcLogger)
    (now : Int) (m : GoString)
    (hmdc : l.mdc = []) (hlevel : l.level = DEBUG) (hp : needsNoEscape l.proc = true)
    (hm : needsNoEscape m = true) (hverb : 0x25 ∉ m) :
    (Debug verbs l now m []).writer =
      l.writer ++ expectedLine (getTime now) (bytesOf "DEBUG") l.proc m ∧
    (Info verbs l now m []).writer =
      l.writer ++ expectedLine (getTime now) (bytesOf "INFO") l.proc m ∧
    (Warning verbs l now m []).writer =
      l.writer ++ expectedLine (getTime now) (bytesOf "WARNING") l.proc m ∧
    (Error verbs l now m []).writer =
      l.writer ++ expectedLine (getTime now) (bytesOf "ERROR") l.proc m ∧
    (∀ level : Level, level ∈ [ERR, WARN, INFO, DEBUG] →
      (Log verbs l now level m []).writer =
        l.writer ++ expectedLine (getTime now) (levelString level) l.proc m) := by
  have key : ∀ level : Level, level ∈ [ERR, WARN, INFO, DEBUG] →
      (Log verbs l now level m []).writer =
        l.writer ++ expectedLine (getTime now) (levelString level) l.proc m := by
    intro level hmem
    have hle : level ≤ l.level := by
      rw [hlevel]
      simp only [List.mem_cons, List.mem_singleton, List.not_mem_nil, or_false] at hmem
      rcases hmem with h | h | h | h <;> subst h <;> decide
    exact Log_plain_line verbs l now level m hmdc hle hp hm hverb
  refine ⟨key DEBUG (by simp), key INFO (by simp), key WARN (by simp), key ERR (by simp), key⟩

/-- C2 at the logger and message of the repository's test. -/
theorem plain_message_line_witness :
    (Debug (fun _ (_ : List Unit) => []) (initLogger (bytesOf "foo") []).1 1500000000
        (bytesOf "test debug") []).writer =
      bytesOf "\x7b\"ts\":1500,\"crit\":\"DEBUG\",\"id\":\"foo\",\"mdc\":\x7b\x7d,\"msg\":\"test debug\"\x7d\n" :=
  (plain_message_line (fun _ (_ : List Unit) => []) (initLogger (bytesOf "foo") []).1
    1500000000 (bytesOf "test debug") rfl rfl (by decide) (by decide) (by decide)).1.trans
    (by decide)

/-- C2 as stated fails for an identity that holds a quote: the quote is written
with a backslash in front, so the line is not the identity between quotes. -/
theorem quoted_identity_is_escaped :
    (Debug (fun _ (_ : List Unit) => []) (initLogger [0x22] []).1 0 (bytesOf "test") []).writer ≠
      expectedLine 0 (bytesOf "DEBUG") [0x22] (bytesOf "test") ∧
    (Debug (fun _ (_ : List Unit) => []) (initLogger [0x22] []).1 0 (bytesOf "test") []).writer =
      expectedLine 0 (bytesOf "DEBUG") [0x5C, 0x22] (bytesOf "test") := by
  decide

/-- Decoding looks at no byte behind an ASCII byte. -/
theorem decode_append_ascii (b : Nat) (t : GoString) (c : Nat) (u : GoString) (hc : c < 0x80) :
    DecodeRuneInString (b :: (t ++ c :: u)) = DecodeRuneInString (b :: t) := by
  rcases first_cases b with h | h | h | h | h
  · simp [DecodeRuneInString, h.2]
  · simp [DecodeRuneInString, h.2]
  · obtain ⟨h1, h2, h3⟩ := h
    rcases t with _ | ⟨s1, r⟩
    · simp [DecodeRuneInString, h3]; omega
    · simp [DecodeRuneInString, h3]
      split_ifs <;> first | rfl | omega
  · obtain ⟨h1, h2, h3, h4, h5, h6, h7, h8, h9⟩ := h
    rcases t with _ | ⟨s1, _ | ⟨s2, r⟩⟩
    · simp [DecodeRuneInString, h3]; omega
    · simp [DecodeRuneInString, h3]; omega
    · simp [DecodeRuneInString, h3]
      split_ifs <;> first | rfl | omega
  · obtain ⟨h1, h2, h3, h4, h5, h6, h7, h8, h9⟩ := h
    rcases t with _ | ⟨s1, _ | ⟨s2, _ | ⟨s3, r⟩⟩⟩
    · simp [DecodeRuneInString, h3]; omega
    · simp [DecodeRuneInString, h3]; omega
    · simp [DecodeRuneInString, h3]; omega
    · simp [DecodeRuneInString, h3]
      split_ifs <;> first | rfl | omega

/-- The encoder works rune by rune: an ASCII byte splits the string into two
parts that are encoded independently of each other. -/
theorem stringLoop_append_ascii (c : Nat) (u : GoString) (hc : c < 0x80) (s : GoString) :
    stringLoop (s ++ c :: u).length (s ++ c :: u) =
      stringLoop s.length s ++ stringLoop (c :: u).length (c :: u) := by
  induction s using rune_induction with
  | hnil => simp [stringLoop]
  | hascii b t hb ih =>
    rw [List.cons_append, stringLoop_ascii b _ hb, stringLoop_ascii b t hb, ih,
      List.append_assoc]
  | hbad b t hb hd ih =>
    have hd2 : DecodeRuneInString (b :: (t ++ c :: u)) = (RuneError, 1) := by
      rw [decode_append_ascii b t c u hc, hd]
    rw [List.cons_append, stringLoop_bad b _ hb hd2, stringLoop_bad b t hb hd, ih,
      List.append_assoc]
  | hmulti b t hb hd ih =>
    have hd2 := decode_append_ascii b t c u hc
    have hle := decode_size_le b t
    rw [List.cons_append, stringLoop_multi b _ hb (by rw [hd2]; exact hd),
      stringLoop_multi b t hb hd, hd2]
    have htake : (b :: (t ++ c :: u)).take (DecodeRuneInString (b :: t)).2 =
        (b :: t).take (DecodeRuneInString (b :: t)).2 := by
      rw [← List.cons_append, List.take_append_of_le_length hle]
    have hdrop : (b :: (t ++ c :: u)).drop (DecodeRuneInString (b :: t)).2 =
        (b :: t).drop (DecodeRuneInString (b :: t)).2 ++ c :: u := by
      rw [← List.cons_append, List.drop_append_of_le_length hle]
    rw [htake, hdrop, ih, List.append_assoc]

theorem count_eq_zero_of_ge {c : Nat} {s : GoString} (hc : c < 0x80) (h : ∀ x ∈ s, 0x80 ≤ x) :
    s.count c = 0 := by
  rw [List.count_eq_zero]
  intro hmem
  have := h c hmem
  omega

theorem hex_cases (n : Nat) (hn : n < 16) : (48 ≤ hex n ∧ hex n ≤ 57) ∨ (97 ≤ hex n ∧ hex n ≤ 102) := by
  unfold hex; split <;> omega

theorem count_escapeByte (c b : Nat) (hc : c = 0x3C ∨ c = 0x3E ∨ c = 0x26) (hb : b < 0x80) :
    (escapeByte b).count c = 0 := by
  rw [List.count_eq_zero]
  intro hmem
  have h1 := hex_cases (b / 16) (by omega)
  have h2 := hex_cases (b % 16) (by omega)
  unfold escapeByte at hmem
  split_ifs at hmem <;> simp at hmem <;> omega

/-- The encoder writes as many `<`, `>` and `&` as the string holds. -/
theorem count_stringLoop (c : Nat) (hc : c = 0x3C ∨ c = 0x3E ∨ c = 0x26) (s : GoString) :
    (stringLoop s.length s).count c = s.count c := by
  have hc80 : c < 0x80 := by omega
  induction s using rune_induction with
  | hnil => simp [stringLoop]
  | hascii b t hb ih =>
    rw [stringLoop_ascii b t hb, List.count_append, ih]
    by_cases hs : safeSet b = true
    · simp only [hs, if_true, List.count_cons, List.count_nil]
      omega
    · have hbc : c ≠ b := by
        intro he
        apply hs
        subst he
        rcases hc with h | h | h <;> subst h <;> decide
      simp only [hs, Bool.false_eq_true, if_false]
      rw [List.count_cons_of_ne (by omega), count_escapeByte c b hc hb,
        List.count_cons_of_ne hbc]
      omega
  | hbad b t hb hd ih =>
    have hz : ([0x5C, 0x75, 0x66, 0x66, 0x66, 0x64] : GoString).count c = 0 := by
      rw [List.count_eq_zero]; intro hmem; simp at hmem; omega
    have hbc : c ≠ b := by omega
    rw [stringLoop_bad b t hb hd, List.count_append, ih, hz, List.count_cons_of_ne hbc]
    omega
  | hmulti b t hb hd ih =>
    rw [stringLoop_multi b t hb hd, List.count_append, ih]
    have hsplit : (b :: t).count c =
        ((b :: t).take (DecodeRuneInString (b :: t)).2).count c +
        ((b :: t).drop (DecodeRuneInString (b :: t)).2).count c := by
      rw [← List.count_append, List.take_append_drop]
    have htake := count_eq_zero_of_ge hc80 (decode_take_ge b t hb hd)
    rw [hsplit, htake]
    split_ifs
    · have hh := hex_cases ((DecodeRuneInString (b :: t)).1 % 16) (by omega)
      have hz : ([0x5C, 0x75, 0x32, 0x30, 0x32,
          hex ((DecodeRuneInString (b :: t)).1 % 16)] : GoString).count c = 0 := by
        rw [List.count_eq_zero]; intro hmem; simp at hmem; omega
      rw [hz]
    · rw [htake]

theorem count_encodeString (c : Nat) (hc : c = 0x3C ∨ c = 0x3E ∨ c = 0x26) (s : GoString) :
    (encodeString s).count c = s.count c := by
  unfold encodeString
  have h22 : c ≠ 0x22 := by omega
  rw [List.count_append, List.count_cons_of_ne h22, count_stringLoop c hc s,
    List.count_cons_of_ne h22]
  simp

/-! ## HTML-sensitive characters -/

theorem count_eq_zero_of_forall {c : Nat} (hc : c = 0x3C ∨ c = 0x3E ∨ c = 0x26) {s : GoString}
    (h : ∀ x ∈ s, x ≠ 0x3C ∧ x ≠ 0x3E ∧ x ≠ 0x26) : s.count c = 0 := by
  rw [List.count_eq_zero]
  intro hmem
  have := h c hmem
  omega

theorem formatBits_digits (fuel : Nat) : ∀ (n : Nat) (acc : GoString),
    (∀ x ∈ acc, x = 0x2D ∨ (48 ≤ x ∧ x ≤ 57)) →
    ∀ x ∈ formatBits fuel n acc, x = 0x2D ∨ (48 ≤ x ∧ x ≤ 57) := by
  induction fuel with
  | zero => intro n acc hacc; simpa [formatBits] using hacc
  | succ k ih =>
    intro n acc hacc
    simp only [formatBits]
    split
    · intro x hx
      rcases List.mem_cons.1 hx with hx | hx
      · omega
      · exact hacc x hx
    · apply ih
      intro x hx
      rcases List.mem_cons.1 hx with hx | hx
      · omega
      · exact hacc x hx

theorem AppendInt_digits (i : Int) : ∀ x ∈ AppendInt i, x = 0x2D ∨ (48 ≤ x ∧ x ≤ 57) := by
  intro x hx
  unfold AppendInt at hx
  split at hx
  · rcases List.mem_cons.1 hx with hx | hx
    · omega
    · exact formatBits_digits _ _ [] (by simp) x hx
  · exact formatBits_digits _ _ [] (by simp) x hx

theorem count_AppendInt (c : Nat) (hc : c = 0x3C ∨ c = 0x3E ∨ c = 0x26) (i : Int) :
    (AppendInt i).count c = 0 := by
  apply count_eq_zero_of_forall hc
  intro x hx
  have := AppendInt_digits i x hx
  omega

theorem count_levelString (c : Nat) (hc : c = 0x3C ∨ c = 0x3E ∨ c = 0x26) (level : Level) :
    (levelString level).count c = 0 := by
  apply count_eq_zero_of_forall hc
  unfold levelString
  split_ifs <;> decide

theorem count_encodeMembers (c : Nat) (hc : c = 0x3C ∨ c = 0x3E ∨ c = 0x26) (m : Entries) :
    (encodeMembers m).count c = (m.map (fun e => e.1.count c + e.2.count c)).sum := by
  have h3A : c ≠ 0x3A := by omega
  have h2C : c ≠ 0x2C := by omega
  induction m with
  | nil => simp [encodeMembers]
  | cons e rest ih =>
    obtain ⟨k, v⟩ := e
    cases rest with
    | nil =>
      simp only [encodeMembers, List.count_append, count_encodeString c hc,
        List.count_cons_of_ne h3A, List.map_cons, List.map_nil, List.sum_cons, List.sum_nil]
      omega
    | cons e2 rest2 =>
      simp only [encodeMembers, List.count_append, count_encodeString c hc,
        List.count_cons_of_ne h3A, List.count_cons_of_ne h2C, ih, List.map_cons, List.sum_cons]

/-- The number of `<`, `>` or `&` in a log line is their number in the
message, the identity and the keys and values of the MDC. -/
theorem count_formatLog (c : Nat) (hc : c = 0x3C ∨ c = 0x3E ∨ c = 0x26) (l : MdcLogger)
    (now : Int) (level : Level) (msg : GoString) :
    (formatLog l now level msg).1.count c =
      msg.count c + l.proc.count c + (l.mdc.map (fun e => e.1.count c + e.2.count c)).sum := by
  have h7B : c ≠ 0x7B := by omega
  have h7D : c ≠ 0x7D := by omega
  have h0A : c ≠ 0x0A := by omega
  have hlit : ∀ lit : String, (∀ x ∈ bytesOf lit, x ≠ 0x3C ∧ x ≠ 0x3E ∧ x ≠ 0x26) →
      (bytesOf lit).count c = 0 := fun lit h => count_eq_zero_of_forall hc h
  simp only [formatLog, Encode, marshalLogEntry, encodeMap, List.count_append,
    List.count_cons_of_ne h7B, List.count_cons_of_ne h7D, List.count_cons_of_ne h0A,
    List.count_nil, count_encodeString c hc, count_AppendInt c hc, count_levelString c hc,
    count_encodeMembers c hc, hlit _ (by decide : ∀ x ∈ bytesOf "\"ts\":", _),
    hlit _ (by decide : ∀ x ∈ bytesOf ",\"crit\":", _),
    hlit _ (by decide : ∀ x ∈ bytesOf ",\"id\":", _),
    hlit _ (by decide : ∀ x ∈ bytesOf ",\"mdc\":", _),
    hlit _ (by decide : ∀ x ∈ bytesOf ",\"msg\":", _)]
  omega

theorem stringLoop_html (c : Nat) (hc : c = 0x3C ∨ c = 0x3E ∨ c = 0x26) (u : GoString) :
    stringLoop (c :: u).length (c :: u) = c :: stringLoop u.length u := by
  have hsafe : safeSet c = true := by
    rcases hc with h | h | h <;> subst h <;> decide
  rw [stringLoop_ascii c u (by omega)]
  simp [hsafe]

/-- C4: `<`, `>` and `&` are written as they are.  In every string the encoder
writes (message, identity, MDC key, MDC value) such a character stands at its
place between the encodings of what precedes and what follows it, and a log
line holds as many of them as the message, the identity and the MDC together,
so none is replaced by an escape sequence. -/
theorem html_characters_written_verbatim (c : Nat) (hc : c = 0x3C ∨ c = 0x3E ∨ c = 0x26) :
    (∀ s u : GoString,
      encodeString (s ++ c :: u) = (encodeString s).dropLast ++ c :: (encodeString u).tail) ∧
    (∀ s : GoString, (encodeString s).count c = s.count c) ∧
    (∀ (l : MdcLogger) (now : Int) (level : Level) (msg : GoString),
      (formatLog l now level msg).1.count c =
        msg.count c + l.proc.count c +
          (l.mdc.map (fun e => e.1.count c + e.2.count c)).sum) := by
  refine ⟨?_, count_encodeString c hc, count_formatLog c hc⟩
  intro s u
  have h1 : encodeString s = (0x22 :: stringLoop s.length s) ++ [0x22] := rfl
  rw [h1, List.dropLast_concat]
  simp only [encodeString, List.tail_cons, List.cons_append]
  rw [stringLoop_append_ascii c u (by omega) s, stringLoop_html c hc u]
  simp

/-- C4 on a logger whose identity, MDC and message all hold such characters. -/
theorem html_characters_written_verbatim_witness :
    (formatLog (MdcLogger.mk (bytesOf "a&b") [] [(bytesOf "<k>", bytesOf "v&")] DEBUG 0) 0 INFO (bytesOf "x<y & z")).1 =
      bytesOf "\x7b\"ts\":0,\"crit\":\"INFO\",\"id\":\"a&b\",\"mdc\":\x7b\"<k>\":\"v&\"\x7d,\"msg\":\"x<y & z\"\x7d\n" ∧
    (formatLog (MdcLogger.mk (bytesOf "a&b") [] [(bytesOf "<k>", bytesOf "v&")] DEBUG 0) 0 INFO (bytesOf "x<y & z")).1.count 0x26 = 3 :=
  ⟨by decide,
    ((html_characters_written_verbatim 0x26 (by decide)).2.2 _ 0 INFO (bytesOf "x<y & z")).trans
      (by decide)⟩

/-! ## The configuration file -/

theorem Index_none_of_not_occurs (s p : GoString) (h : ¬ p <:+: s) : Index s p = none := by
  cases hi : Index s p with
  | none => rfl
  | some m =>
    exfalso
    apply h
    rw [← Index_isSome_iff, hi]
    rfl

theorem Index_colon_none (value : GoString) (h : 0x3A ∉ value) :
    Index value (bytesOf ":") = none := by
  apply Index_none_of_not_occurs
  intro hin
  apply h
  have : bytesOf ":" = [0x3A] := by decide
  rw [this] at hin
  exact hin.subset (List.mem_singleton_self _)

/-- A line that is `log-level:` and a value without colon splits into the
word `log-level` and the value. -/
theorem Split_directive (value : GoString) (h : 0x3A ∉ value) :
    Split (bytesOf "log-level:" ++ value) (bytesOf ":") = [bytesOf "log-level", value] := by
  have hsep : bytesOf ":" = [0x3A] := by decide
  have hpre : bytesOf "log-level:" ++ value =
      108 :: 111 :: 103 :: 45 :: 108 :: 101 :: 118 :: 101 :: 108 :: 58 :: value := by
    have : bytesOf "log-level:" = [108, 111, 103, 45, 108, 101, 118, 101, 108, 58] := by decide
    rw [this]; rfl
  have hidx : Index (bytesOf "log-level:" ++ value) (bytesOf ":") = some 9 := by
    rw [hpre, hsep]
    simp [Index, List.isPrefixOf]
  have hword : bytesOf "log-level" = [108, 111, 103, 45, 108, 101, 118, 101, 108] := by decide
  have hsplit : Split (bytesOf "log-level:" ++ value) (bytesOf ":") =
      genSplit (bytesOf "log-level:" ++ value).length (bytesOf "log-level:" ++ value)
        (bytesOf ":") := by
    simp [Split, hsep]
  have hlen : (bytesOf "log-level:" ++ value).length = value.length + 9 + 1 := by
    rw [hpre]; simp
  rw [hsplit, hlen, genSplit, hidx]
  simp only
  have htake : (bytesOf "log-level:" ++ value).take 9 = bytesOf "log-level" := by
    rw [hpre, hword]; rfl
  have hdrop : (bytesOf "log-level:" ++ value).drop (9 + (bytesOf ":").length) = value := by
    rw [hpre, hsep]; rfl
  rw [htake, hdrop]
  have hrest : genSplit (value.length + 9) value (bytesOf ":") = [value] := by
    rw [genSplit, Index_colon_none value h]
  rw [hrest]

theorem LevelSet_LevelSet (l : MdcLogger) (x y : Level) :
    LevelSet (LevelSet l x) y = LevelSet l y := rfl

theorem parseLines_directive_step (mapUpper : GoString → GoString) (value : GoString)
    (h : 0x3A ∉ value) (rest : List GoString) (l : MdcLogger) :
    parseLines mapUpper ((bytesOf "log-level:" ++ value) :: rest) l =
      parseLines mapUpper rest (LevelSet l (levelOfValue mapUpper value)) := by
  have hc : Contains (bytesOf "log-level:" ++ value) (bytesOf "log-level:") = true := by
    rw [Contains_iff_occurs]
    exact ⟨[], value, by simp⟩
  rw [parseLines]
  simp only [hc, if_true, Split_directive value h]
  rfl

/-- Lines that are the directive line or hold no `log-level:` leave the
threshold as the last directive line set it. -/
theorem parseLines_single_directive (mapUpper : GoString → GoString) (value : GoString)
    (h : 0x3A ∉ value) (lines : List GoString)
    (honly : ∀ ln ∈ lines, Contains ln (bytesOf "log-level:") = true →
      ln = bytesOf "log-level:" ++ value) :
    ∀ l : MdcLogger,
      parseLines mapUpper lines l =
        some (if bytesOf "log-level:" ++ value ∈ lines
          then LevelSet l (levelOfValue mapUpper value) else l) ∧
      parseLines mapUpper lines (LevelSet l (levelOfValue mapUpper value)) =
        some (LevelSet l (levelOfValue mapUpper value)) := by
  induction lines with
  | nil => intro l; simp [parseLines]
  | cons ln rest ih =>
    intro l
    have ihr := ih (fun x hx => honly x (List.mem_cons_of_mem _ hx))
    by_cases hc : Contains ln (bytesOf "log-level:") = true
    · have hln := honly ln (List.mem_cons_self _ _) hc
      subst hln
      rw [parseLines_directive_step mapUpper value h, parseLines_directive_step mapUpper value h,
        LevelSet_LevelSet]
      simp only [List.mem_cons, true_or, if_true]
      exact ⟨(ihr l).2, (ihr l).2⟩
    · have hne : ¬ bytesOf "log-level:" ++ value = ln := by
        intro he
        apply hc
        rw [← he, Contains_iff_occurs]
        exact ⟨[], value, by simp⟩
      have hstep : ∀ l0 : MdcLogger, parseLines mapUpper (ln :: rest) l0 =
          parseLines mapUpper rest l0 := by
        intro l0
        rw [parseLines]
        simp only [hc, Bool.false_eq_true, if_false]
      rw [hstep, hstep]
      simp only [List.mem_cons, hne, false_or]
      exact ihr l

theorem ToUpper_ascii (mapUpper : GoString → GoString) (s : GoString)
    (h : s.all (fun c => decide (c < 0x80)) = true) : ToUpper mapUpper s = s.map upperByte := by
  simp only [ToUpper, h, if_true]

theorem levelOfValue_ascii (mapUpper : GoString → GoString) (v : GoString)
    (h : v.all (fun c => decide (c < 0x80)) = true) :
    levelOfValue mapUpper v = levelOfValue mapUpper (v.map upperByte) := by
  have h2 : (v.map upperByte).all (fun c => decide (c < 0x80)) = true := by
    simp only [List.all_eq_true, decide_eq_true_eq, List.mem_map] at h ⊢
    rintro c ⟨x, hx, rfl⟩
    have := h x hx
    unfold upperByte
    split <;> omega
  have h3 : (v.map upperByte).map upperByte = v.map upperByte := by
    simp only [List.map_map]
    apply List.map_congr_left
    intro c _
    simp only [Function.comp, upperByte]
    split_ifs <;> omega
  simp only [levelOfValue, ToUpper_ascii mapUpper v h, ToUpper_ascii mapUpper _ h2, h3]

/-- C10: when the lines of a readable file that contain `log-level:` are all
the line `log-level:` followed by a value without colon, and there is such a
line, `ParseFileContent` sets the threshold to the level of the upper-cased
value by first match among DEBUG, INFO, ERR, WARN, and to ERR when none
matches, whatever the threshold was.  The case of ASCII letters in the value
does not matter; `bogus` gives ERR. -/
theorem parseFileContent_single_directive (mapUpper : GoString → GoString)
    (readFile : GoString → Option GoString) (l : MdcLogger) (fileName data value : GoString)
    (hread : readFile fileName = some data)
    (hline : bytesOf "log-level:" ++ value ∈ Split data (bytesOf "\n"))
    (honly : ∀ ln ∈ Split data (bytesOf "\n"), Contains ln (bytesOf "log-level:") = true →
      ln = bytesOf "log-level:" ++ value)
    (hcolon : 0x3A ∉ value) :
    ParseFileContent mapUpper readFile l fileName =
      some (LevelSet l (levelOfValue mapUpper value)) ∧
    (∀ v w : GoString, v.all (fun c => decide (c < 0x80)) = true →
      w.all (fun c => decide (c < 0x80)) = true → v.map upperByte = w.map upperByte →
      levelOfValue mapUpper v = levelOfValue mapUpper w) ∧
    levelOfValue mapUpper (bytesOf "debug") = DEBUG ∧
    levelOfValue mapUpper (bytesOf "Info") = INFO ∧
    levelOfValue mapUpper (bytesOf "eRR") = ERR ∧
    levelOfValue mapUpper (bytesOf "warN") = WARN ∧
    levelOfValue mapUpper (bytesOf "bogus") = ERR := by
  refine ⟨?_, ?_, ?_, ?_, ?_, ?_, ?_⟩
  · simp only [ParseFileContent, hread]
    rw [(parseLines_single_directive mapUpper value hcolon _ honly l).1]
    simp only [hline, if_true]
  · intro v w hv hw hvw
    rw [levelOfValue_ascii mapUpper v hv, levelOfValue_ascii mapUpper w hw, hvw]
  all_goals
    simp only [levelOfValue]
    rw [ToUpper_ascii mapUpper _ (by decide)]
    decide

/-- C10 on a file with a comment line and the directive `log-level:bogus`,
read by a logger whose threshold is DEBUG. -/
theorem parseFileContent_single_directive_witness :
    ParseFileContent id (fun _ => some (bytesOf "# level\nlog-level:bogus\n"))
        (initLogger (bytesOf "app") []).1 (bytesOf "/tmp/log-file") =
      some (LevelSet (initLogger (bytesOf "app") []).1 ERR) :=
  (parseFileContent_single_directive id (fun _ => some (bytesOf "# level\nlog-level:bogus\n"))
    (initLogger (bytesOf "app") []).1 (bytesOf "/tmp/log-file")
    (bytesOf "# level\nlog-level:bogus\n") (bytesOf "bogus") rfl (by decide) (by decide)
    (by decide)).1.trans (by decide)

/-! ## Decoding an encoded string -/

/-- Encoding the rune of a valid sequence gives the bytes of the sequence. -/
theorem EncodeRune_decode (b : Nat) (t : GoString) (hb : 0x80 ≤ b)
    (hd : 2 ≤ (DecodeRuneInString (b :: t)).2) :
    EncodeRune (DecodeRuneInString (b :: t)).1 = (b :: t).take (DecodeRuneInString (b :: t)).2 := by
  rcases decode_cases b t with ⟨h, _⟩ | ⟨_, h⟩ | ⟨s1, r, ht, h, _, _, _, _⟩ |
    ⟨s1, s2, r, ht, h, _, _, _, _, _, _, _, _⟩ |
    ⟨s1, s2, s3, r, ht, h, _, _, _, _, _, _, _, _, _, _⟩
  · omega
  · rw [h] at hd; simp at hd
  · have e0 : b % 32 = b - 192 := by omega
    have e1 : s1 % 64 = s1 - 128 := by omega
    rw [h, ht, e0, e1]
    simp only [List.take_succ_cons, List.take_zero]
    unfold EncodeRune
    rw [if_neg (by omega), if_pos (by omega)]
    have hA : 0xC0 + ((b - 192) * 64 + (s1 - 128)) / 64 = b := by omega
    have hB : 0x80 + ((b - 192) * 64 + (s1 - 128)) % 64 = s1 := by omega
    rw [hA, hB]
  · have e0 : b % 16 = b - 224 := by omega
    have e1 : s1 % 64 = s1 - 128 := by omega
    have e2 : s2 % 64 = s2 - 128 := by omega
    rw [h, ht, e0, e1, e2]
    simp only [List.take_succ_cons, List.take_zero]
    unfold EncodeRune
    rw [if_neg (by omega), if_neg (by omega), if_neg (by omega), if_pos (by omega)]
    have hA : 0xE0 + ((b - 224) * 4096 + (s1 - 128) * 64 + (s2 - 128)) / 4096 = b := by omega
    have hB : 0x80 + ((b - 224) * 4096 + (s1 - 128) * 64 + (s2 - 128)) / 64 % 64 = s1 := by omega
    have hC : 0x80 + ((b - 224) * 4096 + (s1 - 128) * 64 + (s2 - 128)) % 64 = s2 := by omega
    rw [hA, hB, hC]
  · have e0 : b % 8 = b - 240 := by omega
    have e1 : s1 % 64 = s1 - 128 := by omega
    have e2 : s2 % 64 = s2 - 128 := by omega
    have e3 : s3 % 64 = s3 - 128 := by omega
    rw [h, ht, e0, e1, e2, e3]
    simp only [List.take_succ_cons, List.take_zero]
    unfold EncodeRune
    rw [if_neg (by omega), if_neg (by omega), if_neg (by omega), if_neg (by omega)]
    have hA : 0xF0 + ((b - 240) * 262144 + (s1 - 128) * 4096 + (s2 - 128) * 64 + (s3 - 128)) /
        262144 = b := by omega
    have hB : 0x80 + ((b - 240) * 262144 + (s1 - 128) * 4096 + (s2 - 128) * 64 + (s3 - 128)) /
        4096 % 64 = s1 := by omega
    have hC : 0x80 + ((b - 240) * 262144 + (s1 - 128) * 4096 + (s2 - 128) * 64 + (s3 - 128)) /
        64 % 64 = s2 := by omega
    have hD : 0x80 + ((b - 240) * 262144 + (s1 - 128) * 4096 + (s2 - 128) * 64 + (s3 - 128)) %
        64 = s3 := by omega
    rw [hA, hB, hC, hD]

/-- Decoding a valid sequence looks at no byte behind the sequence. -/
theorem decode_take_append (b : Nat) (t : GoString) (hb : 0x80 ≤ b)
    (hd : 2 ≤ (DecodeRuneInString (b :: t)).2) (u : GoString) :
    DecodeRuneInString ((b :: t).take (DecodeRuneInString (b :: t)).2 ++ u) =
      DecodeRuneInString (b :: t) := by
  rcases first_cases b with h | h | h | h | h
  · omega
  · simp [DecodeRuneInString, h.2] at hd
  · obtain ⟨h1, h2, h3⟩ := h
    rcases t with _ | ⟨s1, r⟩
    · simp [DecodeRuneInString, h3] at hd
    · by_cases hs : s1 < 0x80 ∨ 0xBF < s1
      · simp [DecodeRuneInString, h3, hs] at hd
      · have hdec : DecodeRuneInString (b :: s1 :: r) = ((b % 32) * 64 + s1 % 64, 2) := by
          simp [DecodeRuneInString, h3, hs]
        rw [hdec]
        simp [DecodeRuneInString, h3, hs]
  · obtain ⟨h1, h2, h3, h4, h5, h6, h7, h8, h9⟩ := h
    rcases t with _ | ⟨s1, _ | ⟨s2, r⟩⟩
    · simp [DecodeRuneInString, h3] at hd
    · simp [DecodeRuneInString, h3] at hd
    · by_cases hs : s1 < (first b).2.1 ∨ (first b).2.2 < s1
      · simp [DecodeRuneInString, h3, hs] at hd
      · by_cases hs2 : s2 < 0x80 ∨ 0xBF < s2
        · simp [DecodeRuneInString, h3, hs, hs2] at hd
        · have hdec : DecodeRuneInString (b :: s1 :: s2 :: r) =
              ((b % 16) * 4096 + (s1 % 64) * 64 + s2 % 64, 3) := by
            simp [DecodeRuneInString, h3, hs, hs2]
          rw [hdec]
          simp [DecodeRuneInString, h3, hs, hs2]
  · obtain ⟨h1, h2, h3, h4, h5, h6, h7, h8, h9⟩ := h
    rcases t with _ | ⟨s1, _ | ⟨s2, _ | ⟨s3, r⟩⟩⟩
    · simp [DecodeRuneInString, h3] at hd
    · simp [DecodeRuneInString, h3] at hd
    · simp [DecodeRuneInString, h3] at hd
    · by_cases hs : s1 < (first b).2.1 ∨ (first b).2.2 < s1
      · simp [DecodeRuneInString, h3, hs] at hd
      · by_cases hs2 : s2 < 0x80 ∨ 0xBF < s2
        · simp [DecodeRuneInString, h3, hs, hs2] at hd
        · by_cases hs3 : s3 < 0x80 ∨ 0xBF < s3
          · simp [DecodeRuneInString, h3, hs, hs2, hs3] at hd
          · have hdec : DecodeRuneInString (b :: s1 :: s2 :: s3 :: r) =
                ((b % 8) * 262144 + (s1 % 64) * 4096 + (s2 % 64) * 64 + s3 % 64, 4) := by
              simp [DecodeRuneInString, h3, hs, hs2, hs3]
            rw [hdec]
            simp [DecodeRuneInString, h3, hs, hs2, hs3]

theorem strLess_irrefl (a : GoString) : strLess a a = false := by
  induction a with
  | nil => rfl
  | cons x t ih => simp [strLess, ih]

theorem strLess_asymm : ∀ (a b : GoString), strLess a b = true → strLess b a = false := by
  intro a
  induction a with
  | nil =>
    intro b _
    cases b <;> simp [strLess]
  | cons x t ih =>
    intro b hab
    cases b with
    | nil => simp [strLess] at hab
    | cons y u =>
      simp only [strLess, Bool.or_eq_true, decide_eq_true_eq, Bool.and_eq_true, beq_iff_eq] at hab
      simp only [strLess, Bool.or_eq_false_iff, decide_eq_false_iff_not, Bool.and_eq_false_imp,
        beq_iff_eq]
      rcases hab with hlt | ⟨heq, hrec⟩
      · exact ⟨by omega, fun h => by omega⟩
      · exact ⟨by omega, fun _ => ih u hrec⟩

theorem prepend_some (x s rest : GoString) : prepend x (some (s, rest)) = some (x ++ s, rest) := rfl

theorem unquoteLoop_quote (f : Nat) (rest : GoString) :
    unquoteLoop (f + 1) (0x22 :: rest) = some ([], rest) := by
  simp [unquoteLoop]

theorem unquoteLoop_plain (f : Nat) (c : Nat) (rest : GoString) (h1 : 0x20 ≤ c) (h2 : c < 0x80)
    (h3 : c ≠ 0x22) (h4 : c ≠ 0x5C) :
    unquoteLoop (f + 1) (c :: rest) = prepend [c] (unquoteLoop f rest) := by
  have h5 : ¬ c < 0x20 := by omega
  simp [unquoteLoop, h2, h3, h4, h5]

theorem unquoteLoop_multi (f : Nat) (c : Nat) (rest : GoString) (h1 : 0x80 ≤ c) :
    unquoteLoop (f + 1) (c :: rest) =
      prepend (EncodeRune (DecodeRuneInString (c :: rest)).1)
        (unquoteLoop f ((c :: rest).drop (DecodeRuneInString (c :: rest)).2)) := by
  have h2 : ¬ c < 0x80 := by omega
  have h3 : c ≠ 0x22 := by omega
  have h4 : c ≠ 0x5C := by omega
  have h5 : ¬ c < 0x20 := by omega
  simp [unquoteLoop, h2, h3, h4, h5]

theorem hexValue_hex (n : Nat) (h : n < 16) : hexValue (hex n) = some n := by
  unfold hex hexValue
  split_ifs <;> first | omega | (simp only [Option.some.injEq]; omega)

theorem unquoteLoop_u4 (f : Nat) (a b c d : Nat) (rest : GoString)
    (ha : a < 16) (hb : b < 16) (hc : c < 16) (hd : d < 16)
    (hs : ¬ (0xD800 ≤ a * 4096 + b * 256 + c * 16 + d ∧ a * 4096 + b * 256 + c * 16 + d < 0xE000)) :
    unquoteLoop (f + 1) (0x5C :: 0x75 :: hex a :: hex b :: hex c :: hex d :: rest) =
      prepend (EncodeRune (a * 4096 + b * 256 + c * 16 + d)) (unquoteLoop f rest) := by
  simp [unquoteLoop, getu4, hexValue_hex, ha, hb, hc, hd, hs]

theorem unquoteLoop_escapeByte (f : Nat) (b : Nat) (rest : GoString) (hb : b < 0x80)
    (hs : safeSet b = false) :
    unquoteLoop (f + 1) (0x5C :: (escapeByte b ++ rest)) = prepend [b] (unquoteLoop f rest) := by
  unfold escapeByte
  split_ifs with h1 h2 h3 h4
  · rcases h1 with h1 | h1 <;> subst h1 <;> simp [unquoteLoop]
  · subst h2; simp [unquoteLoop]
  · subst h3; simp [unquoteLoop]
  · subst h4; simp [unquoteLoop]
  · have hlt : b < 0x20 := by
      simp [safeSet] at hs
      omega
    have h30 : (0x30 : Nat) = hex 0 := by decide
    have key := unquoteLoop_u4 f 0 0 (b / 16) (b % 16) rest (by omega) (by omega) (by omega)
      (by omega) (by omega)
    have hval : 0 * 4096 + 0 * 256 + b / 16 * 16 + b % 16 = b := by omega
    rw [hval] at key
    have henc : EncodeRune b = [b] := by
      unfold EncodeRune; rw [if_pos (by omega)]
    rw [henc] at key
    simp only [List.cons_append, List.nil_append]
    rw [h30]
    exact key

/-- Decoding what the encoder wrote for a valid UTF-8 string gives the string
back, and stops behind the closing quote. -/
theorem unquoteLoop_stringLoop (s : GoString) :
    ValidString s = true → ∀ (rest : GoString) (fuel : Nat),
      (stringLoop s.length s).length < fuel →
      unquoteLoop fuel (stringLoop s.length s ++ 0x22 :: rest) = some (s, rest) := by
  induction s using rune_induction with
  | hnil =>
    intro _ rest fuel hf
    cases fuel with
    | zero => omega
    | succ f => simp [stringLoop, unquoteLoop]
  | hascii b t hb ih =>
    intro hv rest fuel hf
    have hd : DecodeRuneInString (b :: t) = (b, 1) := by
      rcases decode_cases b t with ⟨_, h⟩ | ⟨h, _⟩ | ⟨_, _, _, _, h, _⟩ | ⟨_, _, _, _, _, h, _⟩ |
        ⟨_, _, _, _, _, _, h, _⟩
      · exact h
      all_goals omega
    rw [ValidString_cons, hd] at hv
    simp only [List.drop_succ_cons, List.drop_zero] at hv
    have hv2 : ValidString t = true := by
      split at hv
      · simp at hv
      · exact hv
    rw [stringLoop_ascii b t hb] at hf ⊢
    cases fuel with
    | zero => omega
    | succ f =>
      by_cases hs : safeSet b = true
      · simp only [hs, if_true, List.singleton_append, List.length_cons] at hf ⊢
        have hsb := hs
        simp only [safeSet, Bool.and_eq_true, decide_eq_true_eq] at hsb
        rw [List.cons_append, unquoteLoop_plain f b _ (by omega) (by omega) (by omega) (by omega),
          ih hv2 rest f (by omega), prepend_some]
        rfl
      · have hs2 : safeSet b = false := by simpa using hs
        simp only [hs2, Bool.false_eq_true, if_false, List.length_append, List.length_cons]
          at hf ⊢
        simp only [List.cons_append, List.append_assoc]
        rw [unquoteLoop_escapeByte f b _ hb hs2, ih hv2 rest f (by omega), prepend_some]
        rfl
  | hbad b t hb hd ih =>
    intro hv _ _ _
    rw [ValidString_cons, hd] at hv
    simp at hv
  | hmulti b t hb hd ih =>
    intro hv rest fuel hf
    rw [ValidString_cons] at hv
    have hne : ¬ ((DecodeRuneInString (b :: t)).1 = RuneError ∧
        (DecodeRuneInString (b :: t)).2 = 1) := by
      intro h; omega
    simp only [hne, if_false] at hv
    have henc := EncodeRune_decode b t hb hd
    have hle := decode_size_le b t
    rw [stringLoop_multi b t hb hd] at hf ⊢
    cases fuel with
    | zero => omega
    | succ f =>
      split_ifs at hf ⊢ with hc
      · have hcval : 2 * 4096 + 0 * 256 + 2 * 16 + (DecodeRuneInString (b :: t)).1 % 16 =
            (DecodeRuneInString (b :: t)).1 := by omega
        have h32 : (0x32 : Nat) = hex 2 := by decide
        have h30 : (0x30 : Nat) = hex 0 := by decide
        have key := unquoteLoop_u4 f 2 0 2 ((DecodeRuneInString (b :: t)).1 % 16)
          (stringLoop ((b :: t).drop (DecodeRuneInString (b :: t)).2).length
            ((b :: t).drop (DecodeRuneInString (b :: t)).2) ++ 0x22 :: rest)
          (by omega) (by omega) (by omega) (by omega) (by omega)
        rw [hcval, henc] at key
        simp only [List.length_cons, List.length_append, List.length_nil] at hf
        rw [ih hv rest f (by omega), prepend_some, List.take_append_drop] at key
        simp only [List.cons_append, List.nil_append]
        rw [h32, h30]
        exact key
      · have hlt : ((b :: t).take (DecodeRuneInString (b :: t)).2).length =
            (DecodeRuneInString (b :: t)).2 := by
          rw [List.length_take]; omega
        rw [List.length_append, hlt] at hf
        have htake : (b :: t).take (DecodeRuneInString (b :: t)).2 =
            b :: t.take ((DecodeRuneInString (b :: t)).2 - 1) := by
          cases hn : (DecodeRuneInString (b :: t)).2 with
          | zero => omega
          | succ k => simp
        have hstep := unquoteLoop_multi f b
          (t.take ((DecodeRuneInString (b :: t)).2 - 1) ++
            (stringLoop ((b :: t).drop (DecodeRuneInString (b :: t)).2).length
              ((b :: t).drop (DecodeRuneInString (b :: t)).2) ++ 0x22 :: rest)) hb
        rw [← List.cons_append, ← htake, decode_take_append b t hb hd, henc,
          List.drop_left' hlt] at hstep
        rw [List.append_assoc, hstep, ih hv rest f (by omega), prepend_some,
          List.take_append_drop]

theorem skipSpace_cons (c : Nat) (r : GoString) (h : isSpace c = false) :
    skipSpace (c :: r) = c :: r := by
  simp [skipSpace, List.dropWhile, h]

/-- A string value: the decoder reads back a valid UTF-8 string from its
encoding, whatever follows. -/
theorem parseValue_encodeString (s : GoString) (hv : ValidString s = true) (f : Nat)
    (rest : GoString) :
    parseValue (f + 1) (encodeString s ++ rest) = some (JSONValue.string s, rest) := by
  have hsp : skipSpace (encodeString s ++ rest) =
      0x22 :: (stringLoop s.length s ++ 0x22 :: rest) := by
    simp only [encodeString, List.cons_append, List.append_assoc, List.nil_append]
    exact skipSpace_cons _ _ (by decide)
  rw [parseValue, hsp]
  simp only
  rw [if_pos trivial, unquoteLoop_stringLoop s hv rest _ (by simp)]
  rfl

theorem formatBits_spec (fuel : Nat) : ∀ (n : Nat) (acc : GoString), n < fuel →
    ∃ ds : GoString, formatBits fuel n acc = ds ++ acc ∧ ds ≠ [] ∧
      (∀ x ∈ ds, isDigit x = true) ∧ (n ≠ 0 → ds.head? ≠ some 0x30) ∧ (n = 0 → ds = [0x30]) := by
  induction fuel with
  | zero => intro n acc h; omega
  | succ k ih =>
    intro n acc hn
    simp only [formatBits]
    split
    · rename_i h10
      refine ⟨[48 + n], rfl, by simp, ?_, ?_, ?_⟩
      · intro x hx
        simp only [List.mem_singleton] at hx
        subst hx
        simp [isDigit]; omega
      · intro h0
        simp only [List.head?_cons, ne_eq, Option.some.injEq]
        omega
      · intro h0; subst h0; rfl
    · rename_i h10
      obtain ⟨ds, hds, hne, hdig, hhead, _⟩ := ih (n / 10) ((48 + n % 10) :: acc) (by omega)
      refine ⟨ds ++ [48 + n % 10], ?_, by simp, ?_, ?_, ?_⟩
      · rw [hds]; simp
      · intro x hx
        rcases List.mem_append.1 hx with hx | hx
        · exact hdig x hx
        · simp only [List.mem_singleton] at hx
          subst hx
          simp [isDigit]; omega
      · intro _
        cases ds with
        | nil => exact absurd rfl hne
        | cons d r =>
          have := hhead (by omega)
          simpa using this
      · intro h0; omega

theorem takeWhile_append_stop (p : Nat → Bool) (ds : GoString) (c : Nat) (rest : GoString)
    (hds : ∀ x ∈ ds, p x = true) (hc : p c = false) :
    (ds ++ c :: rest).takeWhile p = ds := by
  induction ds with
  | nil => simp [List.takeWhile, hc]
  | cons d r ih =>
    have hd := hds d (List.mem_cons_self _ _)
    rw [List.cons_append, List.takeWhile_cons, hd]
    simp only [if_true]
    rw [ih (fun x hx => hds x (List.mem_cons_of_mem _ hx))]

/-- Digits without a leading zero, with or without a minus sign in front and
a comma behind, scan as one number literal. -/
theorem scanNumber_digits (neg : Bool) (ds rest : GoString) (hne : ds ≠ [])
    (hdig : ∀ x ∈ ds, isDigit x = true) (hzero : ds.head? = some 0x30 → ds.length = 1) :
    scanNumber ((if neg then [0x2D] else []) ++ ds ++ 0x2C :: rest) =
      some ((if neg then [0x2D] else []) ++ ds, 0x2C :: rest) := by
  obtain ⟨d, r, hdr⟩ : ∃ d r, ds = d :: r := by
    cases ds with
    | nil => exact absurd rfl hne
    | cons d r => exact ⟨d, r, rfl⟩
  have hd : isDigit d = true := hdig d (by rw [hdr]; exact List.mem_cons_self _ _)
  have hd2D : d ≠ 0x2D := by
    intro h; subst h; revert hd; decide
  have hsign : (((if neg then [0x2D] else []) ++ ds ++ 0x2C :: rest).takeWhile
      (fun c => decide (c = 0x2D))).take 1 = (if neg then [0x2D] else []) := by
    cases neg <;> simp [hdr, List.takeWhile, hd2D]
  have hs1 : ((if neg then [0x2D] else []) ++ ds ++ 0x2C :: rest).drop
      (if neg then [0x2D] else [] : GoString).length = ds ++ 0x2C :: rest := by
    cases neg <;> simp
  have hint : (ds ++ 0x2C :: rest).takeWhile isDigit = ds :=
    takeWhile_append_stop isDigit ds 0x2C rest hdig (by decide)
  have hs2 : (ds ++ 0x2C :: rest).drop ds.length = 0x2C :: rest := List.drop_left _ _
  have hcond : ¬ (ds.isEmpty = true ∨ (ds.head? = some 0x30 ∧ ds.length ≠ 1)) := by
    rintro (h | ⟨h1, h2⟩)
    · rw [hdr] at h; simp at h
    · exact h2 (hzero h1)
  unfold scanNumber
  simp only [hsign, hs1, hint, hs2, hcond, if_false]
  simp

theorem AppendInt_shape (i : Int) :
    ∃ (neg : Bool) (ds : GoString), AppendInt i = (if neg then [0x2D] else []) ++ ds ∧ ds ≠ [] ∧
      (∀ x ∈ ds, isDigit x = true) ∧ (ds.head? = some 0x30 → ds.length = 1) := by
  obtain ⟨ds, hds, hne, hdig, hhead, hzero⟩ := formatBits_spec (i.natAbs + 1) i.natAbs [] (by omega)
  have hz : ds.head? = some 0x30 → ds.length = 1 := by
    intro h
    by_cases h0 : i.natAbs = 0
    · rw [hzero h0]; rfl
    · exact absurd h (hhead h0)
  rw [List.append_nil] at hds
  unfold AppendInt
  split
  · exact ⟨true, ds, by rw [hds]; rfl, hne, hdig, hz⟩
  · exact ⟨false, ds, by rw [hds]; rfl, hne, hdig, hz⟩

/-- A number value: the decoder reads the decimal form of an integer in front
of a comma as one number. -/
theorem parseValue_AppendInt (i : Int) (f : Nat) (rest : GoString) :
    parseValue (f + 1) (AppendInt i ++ 0x2C :: rest) =
      some (JSONValue.number (AppendInt i), 0x2C :: rest) := by
  obtain ⟨neg, ds, hsh, hne, hdig, hz⟩ := AppendInt_shape i
  have hscan := scanNumber_digits neg ds rest hne hdig hz
  rw [← hsh] at hscan
  obtain ⟨c, tl, hc, hcc⟩ : ∃ c tl, AppendInt i ++ 0x2C :: rest = c :: tl ∧
      (c = 0x2D ∨ isDigit c = true) := by
    rw [hsh]
    cases ds with
    | nil => exact absurd rfl hne
    | cons d r =>
      cases neg
      · exact ⟨d, r ++ 0x2C :: rest, by simp, Or.inr (hdig d (List.mem_cons_self _ _))⟩
      · exact ⟨0x2D, d :: r ++ 0x2C :: rest, by simp, Or.inl rfl⟩
  have hrange : c = 0x2D ∨ (0x30 ≤ c ∧ c ≤ 0x39) := by
    rcases hcc with h | h
    · exact Or.inl h
    · right; simpa [isDigit] using h
  rw [hc] at hscan ⊢
  have hsp : skipSpace (c :: tl) = c :: tl :=
    skipSpace_cons _ _ (by simp [isSpace]; omega)
  rw [parseValue, hsp]
  simp only
  have ht : (bytesOf "true").isPrefixOf (c :: tl) = false := by
    have : bytesOf "true" = [116, 114, 117, 101] := by decide
    rw [this]; simp [List.isPrefixOf]; omega
  have hf : (bytesOf "false").isPrefixOf (c :: tl) = false := by
    have : bytesOf "false" = [102, 97, 108, 115, 101] := by decide
    rw [this]; simp [List.isPrefixOf]; omega
  have hn : (bytesOf "null").isPrefixOf (c :: tl) = false := by
    have : bytesOf "null" = [110, 117, 108, 108] := by decide
    rw [this]; simp [List.isPrefixOf]; omega
  rw [if_neg (by omega), if_neg (by omega), if_neg (by omega), ht, hf, hn, hscan]
  rfl

theorem encodeString_head (s rest : GoString) :
    encodeString s ++ rest = 0x22 :: (stringLoop s.length s ++ 0x22 :: rest) := by
  simp [encodeString]

/-- One member of an object followed by a comma: the key and the value are
stored and the decoder goes on with the next member. -/
theorem parseMembers_comma (k : GoString) (hk : ValidString k = true) (f : Nat)
    (acc : List (GoString × JSONValue)) (venc : GoString) (v : JSONValue) (rest : GoString)
    (hpv : parseValue f (venc ++ 0x2C :: rest) = some (v, 0x2C :: rest)) :
    parseMembers (f + 1) acc (encodeString k ++ 0x3A :: (venc ++ 0x2C :: rest)) =
      parseMembers f (insertEntry k v acc) rest := by
  rw [encodeString_head, parseMembers, skipSpace_cons _ _ (by decide)]
  simp only
  rw [unquoteLoop_stringLoop k hk _ _ (by simp)]
  simp only
  rw [skipSpace_cons _ _ (by decide)]
  simp only
  rw [hpv]
  simp only
  rw [skipSpace_cons _ _ (by decide)]

/-- The last member of an object, followed by the closing brace. -/
theorem parseMembers_close (k : GoString) (hk : ValidString k = true) (f : Nat)
    (acc : List (GoString × JSONValue)) (venc : GoString) (v : JSONValue) (rest : GoString)
    (hpv : parseValue f (venc ++ 0x7D :: rest) = some (v, 0x7D :: rest)) :
    parseMembers (f + 1) acc (encodeString k ++ 0x3A :: (venc ++ 0x7D :: rest)) =
      some (JSONValue.object (insertEntry k v acc), rest) := by
  rw [encodeString_head, parseMembers, skipSpace_cons _ _ (by decide)]
  simp only
  rw [unquoteLoop_stringLoop k hk _ _ (by simp)]
  simp only
  rw [skipSpace_cons _ _ (by decide)]
  simp only
  rw [hpv]
  simp only
  rw [skipSpace_cons _ _ (by decide)]

/-- The members of a string map, read in the order they were written. -/
theorem parseMembers_encodeMembers (es : Entries) :
    es ≠ [] → (∀ e ∈ es, ValidString e.1 = true ∧ ValidString e.2 = true) →
    ∀ (f : Nat) (acc : List (GoString × JSONValue)) (rest : GoString), es.length < f →
      parseMembers f acc (encodeMembers es ++ 0x7D :: rest) =
        some (JSONValue.object
          (es.foldl (fun a e => insertEntry e.1 (JSONValue.string e.2) a) acc), rest) := by
  induction es with
  | nil => intro h; exact absurd rfl h
  | cons e tl ih =>
    intro _ hvalid f acc rest hf
    obtain ⟨k, v⟩ := e
    have hkv := hvalid (k, v) (List.mem_cons_self _ _)
    cases f with
    | zero => omega
    | succ g =>
      cases tl with
      | nil =>
        simp only [encodeMembers, List.append_assoc, List.cons_append, List.foldl_cons,
          List.foldl_nil]
        simp only [List.length_cons, List.length_nil] at hf
        obtain ⟨g2, hg2⟩ : ∃ g2, g = g2 + 1 := ⟨g - 1, by omega⟩
        subst hg2
        exact parseMembers_close k hkv.1 _ acc (encodeString v) (JSONValue.string v) rest
          (parseValue_encodeString v hkv.2 g2 _)
      | cons e2 tl2 =>
        simp only [encodeMembers, List.append_assoc, List.cons_append, List.foldl_cons]
        simp only [List.length_cons] at hf
        obtain ⟨g2, hg2⟩ : ∃ g2, g = g2 + 1 := ⟨g - 1, by omega⟩
        subst hg2
        rw [parseMembers_comma k hkv.1 _ acc (encodeString v) (JSONValue.string v) _
          (parseValue_encodeString v hkv.2 g2 _)]
        have := ih (by simp) (fun x hx => hvalid x (List.mem_cons_of_mem _ hx)) (g2 + 1)
          (insertEntry k (JSONValue.string v) acc) rest (by simp only [List.length_cons]; omega)
        simpa only [List.foldl_cons] using this

theorem insertEntry_last {β : Type} (k : GoString) (v : β) (acc : List (GoString × β))
    (h : ∀ a ∈ acc, strLess a.1 k = true) : insertEntry k v acc = acc ++ [(k, v)] := by
  induction acc with
  | nil => rfl
  | cons a tl ih =>
    obtain ⟨k2, v2⟩ := a
    have hlt : strLess k2 k = true := h (k2, v2) (List.mem_cons_self _ _)
    have h1 : strLess k k2 = false := strLess_asymm k2 k hlt
    have h2 : ¬ k = k2 := by
      intro he
      subst he
      rw [strLess_irrefl] at hlt
      cases hlt
    simp only [insertEntry, h1, Bool.false_eq_true, if_false, h2, List.cons_append]
    rw [ih (fun a ha => h a (List.mem_cons_of_mem _ ha))]

/-- Writing the entries of a map in ascending key order into a map gives the
entries in the same order. -/
theorem foldl_insertEntry_ascending (es : Entries) :
    KeysAscending es → ∀ acc : List (GoString × JSONValue),
      (∀ a ∈ acc, ∀ e ∈ es, strLess a.1 e.1 = true) →
      es.foldl (fun a e => insertEntry e.1 (JSONValue.string e.2) a) acc =
        acc ++ es.map (fun e => (e.1, JSONValue.string e.2)) := by
  induction es with
  | nil => intro _ acc _; simp
  | cons e tl ih =>
    intro hasc acc hacc
    have hp := List.pairwise_cons.1 hasc
    simp only [List.foldl_cons, List.map_cons]
    rw [insertEntry_last e.1 _ acc (fun a ha => hacc a ha e (List.mem_cons_self _ _))]
    rw [ih hp.2 _ ?_]
    · simp
    · intro a ha x hx
      rcases List.mem_append.1 ha with ha | ha
      · exact hacc a ha x (List.mem_cons_of_mem _ hx)
      · simp only [List.mem_singleton] at ha
        subst ha
        exact hp.1 x hx

theorem stringMembers_map (es : Entries) :
    stringMembers (es.map (fun e => (e.1, JSONValue.string e.2))) = some es := by
  induction es with
  | nil => rfl
  | cons e tl ih =>
    obtain ⟨k, v⟩ := e
    simp only [List.map_cons, stringMembers, ih]
    rfl

theorem length_le_encodeMembers (es : Entries) : es.length ≤ (encodeMembers es).length := by
  induction es with
  | nil => simp
  | cons e tl ih =>
    obtain ⟨k, v⟩ := e
    cases tl with
    | nil =>
      simp only [encodeMembers, List.length_append, List.length_cons, List.length_nil]
      omega
    | cons e2 tl2 =>
      simp only [encodeMembers, List.length_append, List.length_cons] at ih ⊢
      omega

/-- A map value: the decoder reads back a map of valid UTF-8 strings from its
encoding. -/
theorem parseValue_encodeMap (m : Entries)
    (hvalid : ∀ e ∈ m, ValidString e.1 = true ∧ ValidString e.2 = true)
    (hasc : KeysAscending m) (f : Nat) (hf : m.length < f) (rest : GoString) :
    parseValue (f + 1) (encodeMap m ++ rest) =
      some (JSONValue.object (m.map (fun e => (e.1, JSONValue.string e.2))), rest) := by
  cases m with
  | nil =>
    simp only [encodeMap, encodeMembers, List.nil_append, List.cons_append, List.map_nil]
    rw [parseValue, skipSpace_cons _ _ (by decide)]
    simp only
    rw [if_pos trivial, skipSpace_cons _ _ (by decide)]
  | cons e tl =>
    have hne : e :: tl ≠ [] := by simp
    have hhead : ∃ r, encodeMembers (e :: tl) ++ 0x7D :: rest = 0x22 :: r := by
      obtain ⟨k, v⟩ := e
      cases tl
      · simp only [encodeMembers, encodeString, List.cons_append]
        exact ⟨_, rfl⟩
      · simp only [encodeMembers, encodeString, List.cons_append]
        exact ⟨_, rfl⟩
    obtain ⟨r, hr⟩ := hhead
    have hparse := parseMembers_encodeMembers (e :: tl) hne hvalid f [] rest hf
    rw [foldl_insertEntry_ascending (e :: tl) hasc [] (by simp), List.nil_append] at hparse
    simp only [encodeMap, List.cons_append, List.append_assoc, List.nil_append]
    rw [parseValue, skipSpace_cons _ _ (by decide)]
    simp only
    rw [if_pos trivial, hr, skipSpace_cons _ _ (by decide)]
    simp only
    rw [← hr, hparse]

/-- The log object as the sequence of its members, each a key, a colon and a
value. -/
theorem marshalLogEntry_members (e : logEntry) :
    marshalLogEntry e ++ [0x0A] =
      0x7B :: (encodeString (bytesOf "ts") ++ 0x3A :: (AppendInt e.Ts ++ 0x2C ::
        (encodeString (bytesOf "crit") ++ 0x3A :: (encodeString e.Crit ++ 0x2C ::
        (encodeString (bytesOf "id") ++ 0x3A :: (encodeString e.Id ++ 0x2C ::
        (encodeString (bytesOf "mdc") ++ 0x3A :: (encodeMap e.Mdc ++ 0x2C ::
        (encodeString (bytesOf "msg") ++ 0x3A :: (encodeString e.Msg ++ 0x7D :: [0x0A]))))))))))
      := by
  have h1 : bytesOf "\"ts\":" = encodeString (bytesOf "ts") ++ [0x3A] := by decide
  have h2 : bytesOf ",\"crit\":" = 0x2C :: (encodeString (bytesOf "crit") ++ [0x3A]) := by decide
  have h3 : bytesOf ",\"id\":" = 0x2C :: (encodeString (bytesOf "id") ++ [0x3A]) := by decide
  have h4 : bytesOf ",\"mdc\":" = 0x2C :: (encodeString (bytesOf "mdc") ++ [0x3A]) := by decide
  have h5 : bytesOf ",\"msg\":" = 0x2C :: (encodeString (bytesOf "msg") ++ [0x3A]) := by decide
  simp only [marshalLogEntry, h1, h2, h3, h4, h5, List.append_assoc, List.cons_append,
    List.nil_append]

theorem marshalLogEntry_length (e : logEntry) :
    e.Mdc.length + 6 ≤ (marshalLogEntry e ++ [0x0A]).length := by
  have h1 : (bytesOf "\"ts\":").length = 5 := by decide
  have hm := length_le_encodeMembers e.Mdc
  simp only [marshalLogEntry, encodeMap, List.length_append, List.length_cons, List.length_nil, h1]
  omega

/-- The decoder reads a log line as an object with the five members. -/
theorem Unmarshal_marshalLogEntry (e : logEntry) (hcrit : ValidString e.Crit = true)
    (hid : ValidString e.Id = true) (hmsg : ValidString e.Msg = true)
    (hmdc : ∀ x ∈ e.Mdc, ValidString x.1 = true ∧ ValidString x.2 = true)
    (hasc : KeysAscending e.Mdc) :
    Unmarshal (marshalLogEntry e ++ [0x0A]) =
      some (JSONValue.object
        (insertEntry (bytesOf "msg") (JSONValue.string e.Msg)
        (insertEntry (bytesOf "mdc")
          (JSONValue.object (e.Mdc.map (fun x => (x.1, JSONValue.string x.2))))
        (insertEntry (bytesOf "id") (JSONValue.string e.Id)
        (insertEntry (bytesOf "crit") (JSONValue.string e.Crit)
        (insertEntry (bytesOf "ts") (JSONValue.number (AppendInt e.Ts)) [])))))) := by
  have hlen := marshalLogEntry_length e
  obtain ⟨g, hg⟩ : ∃ g, (marshalLogEntry e ++ [0x0A]).length = g + 1 + 5 ∧ e.Mdc.length < g + 1 :=
    ⟨(marshalLogEntry e ++ [0x0A]).length - 6, by omega, by omega⟩
  unfold Unmarshal
  rw [hg.1, marshalLogEntry_members, parseValue, skipSpace_cons _ _ (by decide)]
  simp only
  rw [if_pos trivial, encodeString_head, skipSpace_cons _ _ (by decide)]
  simp only
  rw [← encodeString_head]
  rw [parseMembers_comma _ (by decide) _ _ _ _ _ (parseValue_AppendInt e.Ts _ _)]
  rw [parseMembers_comma _ (by decide) _ _ _ _ _ (parseValue_encodeString e.Crit hcrit _ _)]
  rw [parseMembers_comma _ (by decide) _ _ _ _ _ (parseValue_encodeString e.Id hid _ _)]
  rw [parseMembers_comma _ (by decide) _ _ _ _ _
    (parseValue_encodeMap e.Mdc hmdc hasc (g + 1) (by omega) _)]
  rw [parseMembers_close _ (by decide) _ _ _ _ _ (parseValue_encodeString e.Msg hmsg _ _)]
  simp [skipSpace, isSpace]

/-! ## The order of the entry list -/

theorem strLess_trans : ∀ (a b c : GoString), strLess a b = true → strLess b c = true →
    strLess a c = true := by
  intro a
  induction a with
  | nil =>
    intro b c hab hbc
    cases c with
    | nil => cases b <;> simp [strLess] at hbc
    | cons z w => simp [strLess]
  | cons x t ih =>
    intro b c hab hbc
    cases b with
    | nil => simp [strLess] at hab
    | cons y u =>
      cases c with
      | nil => simp [strLess] at hbc
      | cons z w =>
        simp only [strLess, Bool.or_eq_true, decide_eq_true_eq, Bool.and_eq_true, beq_iff_eq]
          at hab hbc ⊢
        rcases hab with h1 | ⟨h1, h2⟩
        · rcases hbc with h3 | ⟨h3, _⟩
          · left; omega
          · left; omega
        · rcases hbc with h3 | ⟨h3, h4⟩
          · left; omega
          · right; exact ⟨by omega, ih u w h2 h4⟩

theorem strLess_total : ∀ (a b : GoString), a ≠ b → strLess a b = true ∨ strLess b a = true := by
  intro a
  induction a with
  | nil =>
    intro b hne
    cases b with
    | nil => exact absurd rfl hne
    | cons y u => left; simp [strLess]
  | cons x t ih =>
    intro b hne
    cases b with
    | nil => right; simp [strLess]
    | cons y u =>
      simp only [strLess, Bool.or_eq_true, decide_eq_true_eq, Bool.and_eq_true, beq_iff_eq]
      by_cases hxy : x = y
      · subst hxy
        have htu : t ≠ u := fun h => hne (by rw [h])
        rcases ih u htu with h | h
        · left; right; exact ⟨rfl, h⟩
        · right; right; exact ⟨rfl, h⟩
      · rcases Nat.lt_or_gt_of_ne hxy with h | h
        · left; left; exact h
        · right; left; exact h

theorem mem_insertEntry {β : Type} (key : GoString) (value : β) (es : List (GoString × β))
    (e : GoString × β) (h : e ∈ insertEntry key value es) : e = (key, value) ∨ e ∈ es := by
  induction es with
  | nil => simpa [insertEntry] using h
  | cons a tl ih =>
    obtain ⟨k, v⟩ := a
    simp only [insertEntry] at h
    split_ifs at h
    · rcases List.mem_cons.1 h with h | h
      · exact Or.inl h
      · exact Or.inr h
    · rcases List.mem_cons.1 h with h | h
      · exact Or.inl h
      · exact Or.inr (List.mem_cons_of_mem _ h)
    · rcases List.mem_cons.1 h with h | h
      · exact Or.inr (h ▸ List.mem_cons_self _ _)
      · rcases ih h with h | h
        · exact Or.inl h
        · exact Or.inr (List.mem_cons_of_mem _ h)

/-- Map assignment keeps the entry list in ascending key order. -/
theorem KeysAscending_insertEntry (key value : GoString) (es : Entries)
    (h : KeysAscending es) : KeysAscending (insertEntry key value es) := by
  unfold KeysAscending at h ⊢
  induction es with
  | nil => simp [insertEntry]
  | cons a tl ih =>
    obtain ⟨k, v⟩ := a
    have hp := List.pairwise_cons.1 h
    simp only [insertEntry]
    split_ifs with h1 h2
    · refine List.pairwise_cons.2 ⟨?_, h⟩
      intro e he
      rcases List.mem_cons.1 he with he | he
      · subst he; exact h1
      · exact strLess_trans _ _ _ h1 (hp.1 e he)
    · subst h2
      exact List.pairwise_cons.2 ⟨hp.1, hp.2⟩
    · refine List.pairwise_cons.2 ⟨?_, ih hp.2⟩
      intro e he
      rcases mem_insertEntry key value tl e he with he | he
      · subst he
        rcases strLess_total key k h2 with h3 | h3
        · exact absurd h3 h1
        · exact h3
      · exact hp.1 e he

theorem KeysAscending_eraseEntry (key : GoString) (es : Entries) (h : KeysAscending es) :
    KeysAscending (eraseEntry key es) :=
  List.Pairwise.filter _ h

/-- The entry list of every logger the operations build is in ascending key
order: a new logger has it so, and every operation keeps it so. -/
theorem KeysAscending_logger_operations (l : MdcLogger) (h : KeysAscending l.mdc)
    (key value : GoString) (level : Level) :
    (∀ proc writer : GoString, KeysAscending (initLogger proc writer).1.mdc) ∧
    KeysAscending (MdcAdd l key value).mdc ∧
    KeysAscending (MdcRemove l key).mdc ∧
    KeysAscending (MdcClean l).mdc ∧
    KeysAscending (MdcUpdate l key value).mdc ∧
    KeysAscending (LevelSet l level).mdc := by
  refine ⟨fun _ _ => List.Pairwise.nil, KeysAscending_insertEntry _ _ _ h,
    KeysAscending_eraseEntry _ _ h, List.Pairwise.nil, ?_, h⟩
  unfold MdcUpdate
  simp only
  split
  · exact KeysAscending_insertEntry _ _ _ (KeysAscending_eraseEntry _ _ h)
  · exact KeysAscending_insertEntry _ _ _ h

/-! ## The round trip of a log line -/

theorem ValidString_levelString (level : Level) : ValidString (levelString level) = true := by
  unfold levelString
  split_ifs <;> decide

/-- C3 (as amended): for an identity, a message and MDC keys and values that
are valid UTF-8, `formatLog` returns no error and its bytes parse as a JSON
object whose crit is the name of the level, whose id is the identity, whose
msg is the message and whose mdc is the MDC with the same keys and values. -/
theorem formatLog_roundtrip (l : MdcLogger) (now : Int) (level : Level) (msg : GoString)
    (hp : ValidString l.proc = true) (hm : ValidString msg = true)
    (hmdc : ∀ e ∈ l.mdc, ValidString e.1 = true ∧ ValidString e.2 = true)
    (hasc : KeysAscending l.mdc) :
    (formatLog l now level msg).2 = none ∧
    ∃ v : JSONValue, Unmarshal (formatLog l now level msg).1 = some v ∧
      stringField v (bytesOf "crit") = some (levelString level) ∧
      stringField v (bytesOf "id") = some l.proc ∧
      stringField v (bytesOf "msg") = some msg ∧
      stringMapField v (bytesOf "mdc") = some l.mdc := by
  refine ⟨rfl, _, Unmarshal_marshalLogEntry
    ⟨getTime now, levelString level, l.proc, l.mdc, msg⟩
    (ValidString_levelString level) hp hm hmdc hasc, ?_, ?_, ?_, ?_⟩
  · simp only [stringField]
    rw [lookupEntry_insertEntry_other _ _ _ _ (by decide),
      lookupEntry_insertEntry_other _ _ _ _ (by decide),
      lookupEntry_insertEntry_other _ _ _ _ (by decide), lookupEntry_insertEntry_self]
  · simp only [stringField]
    rw [lookupEntry_insertEntry_other _ _ _ _ (by decide),
      lookupEntry_insertEntry_other _ _ _ _ (by decide), lookupEntry_insertEntry_self]
  · simp only [stringField]
    rw [lookupEntry_insertEntry_self]
  · simp only [stringMapField]
    rw [lookupEntry_insertEntry_other _ _ _ _ (by decide), lookupEntry_insertEntry_self]
    exact stringMembers_map l.mdc

/-- C3 on the logger of the repository's test: identity foo, the MDC entry
foo to bar, level INFO and message test2. -/
theorem formatLog_roundtrip_witness :
    ∃ v : JSONValue,
      Unmarshal (formatLog (MdcAdd (initLogger (bytesOf "foo") []).1 (bytesOf "foo")
        (bytesOf "bar")) 0 INFO (bytesOf "test2")).1 = some v ∧
      stringField v (bytesOf "crit") = some (bytesOf "INFO") ∧
      stringField v (bytesOf "id") = some (bytesOf "foo") ∧
      stringField v (bytesOf "msg") = some (bytesOf "test2") ∧
      stringMapField v (bytesOf "mdc") = some [(bytesOf "foo", bytesOf "bar")] :=
  (formatLog_roundtrip (MdcAdd (initLogger (bytesOf "foo") []).1 (bytesOf "foo") (bytesOf "bar"))
    0 INFO (bytesOf "test2") (by decide) (by decide) (by decide)
    (by simp [KeysAscending, MdcAdd, initLogger, insertEntry])).2

/-- C3 as stated fails for a message that is not valid UTF-8: the byte FF is
written as the escape of U+FFFD, so the parsed msg is the three bytes of
U+FFFD and not the message. -/
theorem invalid_utf8_message_is_replaced :
    (Unmarshal (formatLog (initLogger (bytesOf "foo") []).1 0 INFO [0xFF]).1).bind
        (fun v => stringField v (bytesOf "msg")) = some [0xEF, 0xBF, 0xBD] ∧
    (Unmarshal (formatLog (initLogger (bytesOf "foo") []).1 0 INFO [0xFF]).1).bind
        (fun v => stringField v (bytesOf "msg")) ≠ some [0xFF] := by
  decide

/-! ## The lines of the configuration file -/

theorem genSplit_ne_nil (fuel : Nat) (s sep : GoString) : genSplit fuel s sep ≠ [] := by
  cases fuel with
  | zero => simp [genSplit]
  | succ n =>
    rw [genSplit]
    split <;> simp

theorem colon_occurs_of_directive (line : GoString)
    (h : Contains line (bytesOf "log-level:") = true) : (Index line (bytesOf ":")).isSome = true := by
  rw [Contains_iff_occurs] at h
  rw [Index_isSome_iff]
  have h1 : bytesOf ":" <:+: bytesOf "log-level:" := ⟨bytesOf "log-level", [], by decide⟩
  exact h1.trans h

/-- A line that contains `log-level:` has at least two components when split
at its colons. -/
theorem Split_directive_get (line : GoString) (h : Contains line (bytesOf "log-level:") = true) :
    ∃ c0 c1 rest, Split line (bytesOf ":") = c0 :: c1 :: rest := by
  have hidx := colon_occurs_of_directive line h
  obtain ⟨m, hm⟩ := Option.isSome_iff_exists.1 hidx
  have hne : line ≠ [] := by
    intro he
    subst he
    revert h
    decide
  obtain ⟨b, t, hbt⟩ : ∃ b t, line = b :: t := by
    cases line with
    | nil => exact absurd rfl hne
    | cons b t => exact ⟨b, t, rfl⟩
  have hsplit : Split line (bytesOf ":") = genSplit line.length line (bytesOf ":") := by
    have : (bytesOf ":").isEmpty = false := by decide
    simp [Split, this]
  rw [hsplit]
  have hlen : line.length = t.length + 1 := by rw [hbt]; rfl
  rw [hlen, genSplit, hm]
  simp only
  cases hg : genSplit t.length (line.drop (m + (bytesOf ":").length)) (bytesOf ":") with
  | nil => exact absurd hg (genSplit_ne_nil _ _ _)
  | cons c1 rest => exact ⟨_, c1, rest, rfl⟩

theorem parseLines_cons (mapUpper : GoString → GoString) (ln : GoString) (rest : List GoString)
    (l : MdcLogger) :
    parseLines mapUpper (ln :: rest) l =
      parseLines mapUpper rest
        (if Contains ln (bytesOf "log-level:") = true then LevelSet l (levelOfLine mapUpper ln)
          else l) := by
  rw [parseLines]
  by_cases hc : Contains ln (bytesOf "log-level:") = true
  · obtain ⟨c0, c1, r, hs⟩ := Split_directive_get ln hc
    simp only [hc, if_true, hs, levelOfLine, levelOfValue]
    rfl
  · simp only [hc, Bool.false_eq_true, if_false]

/-- The loop over the lines never panics and changes the threshold only: the
threshold becomes the level of the last line that contains `log-level:`. -/
theorem parseLines_result (mapUpper : GoString → GoString) (lines : List GoString) :
    ∀ l : MdcLogger, parseLines mapUpper lines l =
      some (LevelSet l (((lastDirective lines).map (levelOfLine mapUpper)).getD l.level)) := by
  induction lines with
  | nil => intro l; rfl
  | cons ln rest ih =>
    intro l
    rw [parseLines_cons, ih]
    by_cases hc : Contains ln (bytesOf "log-level:") = true
    · simp only [hc, if_true, lastDirective, List.filter_cons, LevelSet_LevelSet]
      cases hf : (rest.filter (fun ln => Contains ln (bytesOf "log-level:"))).getLast? with
      | none =>
        have : rest.filter (fun ln => Contains ln (bytesOf "log-level:")) = [] :=
          List.getLast?_eq_none_iff.1 hf
        simp [this, LevelSet]
      | some x =>
        have hne : rest.filter (fun ln => Contains ln (bytesOf "log-level:")) ≠ [] := by
          intro he; rw [he] at hf; simp at hf
        obtain ⟨y, ys, hy⟩ := List.exists_cons_of_ne_nil hne
        rw [hy] at hf ⊢
        rw [List.getLast?_cons_cons, hf]
        rfl
    · simp only [hc, Bool.false_eq_true, if_false, lastDirective, List.filter_cons]

/-- C11: for a readable file `ParseFileContent` returns with the threshold of
the last line that contains `log-level:` (every such line overwrites the
threshold, lines without it are ignored), with the threshold unchanged when no
line contains it, and with the MDC, the identity, the sink and the started
flag unchanged in every case. -/
theorem parseFileContent_last_directive (mapUpper : GoString → GoString)
    (readFile : GoString → Option GoString) (l : MdcLogger) (fileName data : GoString)
    (hread : readFile fileName = some data) :
    ∃ l2 : MdcLogger, ParseFileContent mapUpper readFile l fileName = some l2 ∧
      l2.level = (match lastDirective (Split data (bytesOf "\n")) with
        | some line => levelOfLine mapUpper line
        | none => l.level) ∧
      ((∀ line ∈ Split data (bytesOf "\n"), Contains line (bytesOf "log-level:") = false) →
        l2.level = l.level) ∧
      (∀ (before after : List GoString) (line : GoString),
        Split data (bytesOf "\n") = before ++ line :: after →
        Contains line (bytesOf "log-level:") = true →
        (∀ x ∈ after, Contains x (bytesOf "log-level:") = false) →
        l2.level = levelOfLine mapUpper line) ∧
      l2.mdc = l.mdc ∧ l2.proc = l.proc ∧ l2.writer = l.writer ∧ l2.init_done = l.init_done := by
  refine ⟨LevelSet l (((lastDirective (Split data (bytesOf "\n"))).map
    (levelOfLine mapUpper)).getD l.level), ?_, ?_, ?_, ?_, rfl, rfl, rfl, rfl⟩
  · simp only [ParseFileContent, hread]
    exact parseLines_result mapUpper _ l
  · simp only [LevelSet]
    cases lastDirective (Split data (bytesOf "\n")) <;> rfl
  · intro hnone
    have hf : (Split data (bytesOf "\n")).filter
        (fun ln => Contains ln (bytesOf "log-level:")) = [] := by
      rw [List.filter_eq_nil_iff]
      intro x hx
      rw [hnone x hx]
      simp
    simp [LevelSet, lastDirective, hf]
  · intro before after line hsplit hc hafter
    have hf : after.filter (fun ln => Contains ln (bytesOf "log-level:")) = [] := by
      rw [List.filter_eq_nil_iff]
      intro x hx
      rw [hafter x hx]
      simp
    simp [LevelSet, lastDirective, hsplit, List.filter_append, List.filter_cons, hc, hf]

/-- C11 on a file with two directives and a line without: the second wins. -/
theorem parseFileContent_last_directive_witness :
    ∃ l2 : MdcLogger,
      ParseFileContent id (fun _ => some (bytesOf "log-level:INFO\nlog-level:debug\nfoo"))
        (initLogger (bytesOf "app") []).1 (bytesOf "/tmp/log-file") = some l2 ∧
      l2.level = DEBUG ∧ l2.mdc = [] :=
  (parseFileContent_last_directive id (fun _ => some (bytesOf "log-level:INFO\nlog-level:debug\nfoo"))
    (initLogger (bytesOf "app") []).1 (bytesOf "/tmp/log-file")
    (bytesOf "log-level:INFO\nlog-level:debug\nfoo") rfl).imp
    (fun _ h => ⟨h.1, h.2.1.trans (by decide), h.2.2.2.2.1⟩)

/-- C12 as stated fails: for lines with a colon in front of `log-level:` or
behind its value the component at index 1 is not the trailing one, and the
three lines of the claim all give ERR. -/
theorem further_colons_give_err :
    (ParseFileContent id (fun _ => some (bytesOf "x:log-level:DEBUG"))
      (initLogger (bytesOf "app") []).1 (bytesOf "f")).map LevelGet = some ERR ∧
    (ParseFileContent id (fun _ => some (bytesOf "log-level:x:DEBUG"))
      (initLogger (bytesOf "app") []).1 (bytesOf "f")).map LevelGet = some ERR ∧
    (ParseFileContent id (fun _ => some (bytesOf "log-level::INFO"))
      (initLogger (bytesOf "app") []).1 (bytesOf "f")).map LevelGet = some ERR ∧
    (ParseFileContent id (fun _ => some (bytesOf "x:log-level:DEBUG"))
      (initLogger (bytesOf "app") []).1 (bytesOf "f")).map LevelGet ≠ some DEBUG := by
  decide

/-- C12 (as amended): for every line that contains `log-level:` and is the
last such line of the file, `ParseFileContent` splits the line at its colons
and classifies the component at index 1, the text between the first and the
second colon of the line (up to the end of the line when there is one colon
only); a keyword elsewhere on the line is not seen. -/
theorem parseFileContent_second_component (mapUpper : GoString → GoString)
    (readFile : GoString → Option GoString) (l : MdcLogger) (fileName data line : GoString)
    (before after : List GoString) (hread : readFile fileName = some data)
    (hsplit : Split data (bytesOf "\n") = before ++ line :: after)
    (hc : Contains line (bytesOf "log-level:") = true)
    (hafter : ∀ x ∈ after, Contains x (bytesOf "log-level:") = false) :
    ∃ c0 c1 rest, Split line (bytesOf ":") = c0 :: c1 :: rest ∧
      ParseFileContent mapUpper readFile l fileName =
        some (LevelSet l (levelOfValue mapUpper c1)) := by
  obtain ⟨c0, c1, rest, hs⟩ := Split_directive_get line hc
  refine ⟨c0, c1, rest, hs, ?_⟩
  have hf : after.filter (fun ln => Contains ln (bytesOf "log-level:")) = [] := by
    rw [List.filter_eq_nil_iff]
    intro x hx
    rw [hafter x hx]
    simp
  simp only [ParseFileContent, hread, hsplit, parseLines_result]
  simp [lastDirective, List.filter_append, List.filter_cons, hc, hf, levelOfLine, hs]

/-- C12 on a file whose last directive is `log-level:x:DEBUG`: the component
at index 1 is `x` and the threshold becomes ERR. -/
theorem parseFileContent_second_component_witness :
    ∃ c0 c1 rest, Split (bytesOf "log-level:x:DEBUG") (bytesOf ":") = c0 :: c1 :: rest ∧
      ParseFileContent id (fun _ => some (bytesOf "log-level:INFO\nlog-level:x:DEBUG\n"))
        (initLogger (bytesOf "app") []).1 (bytesOf "f") =
        some (LevelSet (initLogger (bytesOf "app") []).1 (levelOfValue id c1)) :=
  parseFileContent_second_component id
    (fun _ => some (bytesOf "log-level:INFO\nlog-level:x:DEBUG\n"))
    (initLogger (bytesOf "app") []).1 (bytesOf "f")
    (bytesOf "log-level:INFO\nlog-level:x:DEBUG\n") (bytesOf "log-level:x:DEBUG")
    [bytesOf "log-level:INFO"] [bytesOf ""] rfl (by decide) (by decide) (by decide)

/-- C13: when the file cannot be read `ParseFileContent` returns without panic
and the logger is as before: threshold, MDC, started flag, identity and sink. -/
theorem parseFileContent_read_failure (mapUpper : GoString → GoString)
    (readFile : GoString → Option GoString) (l : MdcLogger) (fileName : GoString)
    (hread : readFile fileName = none) :
    ∃ l2 : MdcLogger, ParseFileContent mapUpper readFile l fileName = some l2 ∧
      l2.level = l.level ∧ l2.mdc = l.mdc ∧ l2.init_done = l.init_done ∧ l2 = l := by
  refine ⟨l, ?_, rfl, rfl, rfl, rfl⟩
  simp only [ParseFileContent, hread]

/-- C13 on a logger with threshold INFO and a started flag, with no file. -/
theorem parseFileContent_read_failure_witness :
    ParseFileContent id (fun _ => none) (MdcLogger.mk (bytesOf "app") [] [] INFO 1)
      (bytesOf "/missing") = some (MdcLogger.mk (bytesOf "app") [] [] INFO 1) :=
  (parseFileContent_read_failure id (fun _ => none) (MdcLogger.mk (bytesOf "app") [] [] INFO 1)
    (bytesOf "/missing") rfl).elim (fun _ h => h.1.trans (congrArg some h.2.2.2.2))

/-- C20: `ParseFileContent` returns on every file, readable or not: a line
that contains `log-level:` has at least two components when split at its
colons, so the index 1 is in range; so also for `log-level:` with nothing
behind the colon, for a file without final newline and for empty lines. -/
theorem parseFileContent_total (mapUpper : GoString → GoString)
    (readFile : GoString → Option GoString) (l : MdcLogger) (fileName : GoString) :
    (ParseFileContent mapUpper readFile l fileName).isSome = true ∧
    (∀ line : GoString, Contains line (bytesOf "log-level:") = true →
      2 ≤ (Split line (bytesOf ":")).length ∧ ((Split line (bytesOf ":")).get? 1).isSome = true) ∧
    (∀ lines : List GoString, (parseLines mapUpper lines l).isSome = true) ∧
    Split (bytesOf "log-level:") (bytesOf ":") = [bytesOf "log-level", bytesOf ""] ∧
    (ParseFileContent mapUpper (fun _ => some (bytesOf "log-level:")) l fileName).isSome = true ∧
    (ParseFileContent mapUpper (fun _ => some (bytesOf "\n\nlog-level:")) l fileName).isSome =
      true := by
  have htotal : ∀ (rf : GoString → Option GoString) (f : GoString),
      (ParseFileContent mapUpper rf l f).isSome = true := by
    intro rf f
    unfold ParseFileContent
    cases rf f with
    | none => rfl
    | some data => simp only [parseLines_result]; rfl
  refine ⟨htotal _ _, ?_, ?_, by decide, htotal _ _, htotal _ _⟩
  · intro line hc
    obtain ⟨c0, c1, rest, hs⟩ := Split_directive_get line hc
    rw [hs]
    simp
  · intro lines
    rw [parseLines_result]
    rfl

/-! ## Replacing an MDC entry -/

theorem eraseEntry_of_forall_ne (key : GoString) (es : Entries) (h : ∀ e ∈ es, e.1 ≠ key) :
    eraseEntry key es = es := by
  unfold eraseEntry
  rw [List.filter_eq_self]
  intro e he
  simpa using h e he

/-- On an entry list in ascending key order, deleting a key before assigning
to it changes nothing. -/
theorem insertEntry_eraseEntry (key value : GoString) (es : Entries) (h : KeysAscending es) :
    insertEntry key value (eraseEntry key es) = insertEntry key value es := by
  unfold KeysAscending at h
  induction es with
  | nil => rfl
  | cons a tl ih =>
    obtain ⟨k, v⟩ := a
    have hp := List.pairwise_cons.1 h
    by_cases h1 : strLess key k = true
    · have hall : ∀ e ∈ (k, v) :: tl, e.1 ≠ key := by
        intro e he hek
        rcases List.mem_cons.1 he with he | he
        · subst he
          simp only at hek
          subst hek
          rw [strLess_irrefl] at h1
          cases h1
        · have h2 := hp.1 e he
          rw [hek] at h2
          have h3 := strLess_asymm _ _ h1
          simp only at h2
          rw [h2] at h3
          cases h3
      rw [eraseEntry_of_forall_ne key _ hall]
    · by_cases h2 : key = k
      · subst h2
        have hall : ∀ e ∈ tl, e.1 ≠ key := by
          intro e he hek
          have h3 := hp.1 e he
          simp only at h3
          rw [hek, strLess_irrefl] at h3
          cases h3
        have herase : eraseEntry key ((key, v) :: tl) = tl := by
          have : eraseEntry key ((key, v) :: tl) = eraseEntry key tl := by
            simp [eraseEntry]
          rw [this, eraseEntry_of_forall_ne key tl hall]
        rw [herase]
        simp only [insertEntry, h1, Bool.false_eq_true, if_false, if_true]
        cases tl with
        | nil => rfl
        | cons b tl2 =>
          obtain ⟨k2, v2⟩ := b
          have hlt : strLess key k2 = true := hp.1 (k2, v2) (List.mem_cons_self _ _)
          simp only [insertEntry, hlt, if_true]
      · have hk : ¬ k = key := fun he => h2 he.symm
        have herase : eraseEntry key ((k, v) :: tl) = (k, v) :: eraseEntry key tl := by
          simp [eraseEntry, hk]
        rw [herase]
        simp only [insertEntry, h1, Bool.false_eq_true, if_false, h2]
        rw [ih hp.2]

/-- C18: without interleaving `MdcUpdate(k, v)` leaves the logger in the state
of `MdcRemove(k)` followed by `MdcAdd(k, v)`, which is the state of
`MdcAdd(k, v)` alone; afterwards `MdcGet(k)` returns `(v, true)` and the other
keys are as before. -/
theorem mdcUpdate_is_remove_then_add (l : MdcLogger) (k v : GoString)
    (hasc : KeysAscending l.mdc) :
    MdcUpdate l k v = MdcAdd (MdcRemove l k) k v ∧
    MdcAdd (MdcRemove l k) k v = MdcAdd l k v ∧
    MdcUpdate l k v = MdcAdd l k v ∧
    MdcGet (MdcUpdate l k v) k = (v, true) ∧
    (∀ other : GoString, other ≠ k → MdcGet (MdcUpdate l k v) other = MdcGet l other) := by
  have h2 : MdcAdd (MdcRemove l k) k v = MdcAdd l k v := by
    simp only [MdcAdd, MdcRemove, insertEntry_eraseEntry k v l.mdc hasc]
  have h1 : MdcUpdate l k v = MdcAdd (MdcRemove l k) k v := by
    unfold MdcUpdate
    simp only
    split
    · rfl
    · exact h2.symm
  refine ⟨h1, h2, h1.trans h2, ?_, ?_⟩
  · rw [h1.trans h2]
    simp [MdcGet, MdcAdd, lookupEntry_insertEntry_self]
  · intro other hne
    rw [h1.trans h2]
    simp [MdcGet, MdcAdd, lookupEntry_insertEntry_other k v other l.mdc hne]

/-- C18 on a store that holds the key with another value and two other keys. -/
theorem mdcUpdate_is_remove_then_add_witness :
    MdcUpdate (MdcLogger.mk (bytesOf "app") []
        [(bytesOf "a", bytesOf "1"), (bytesOf "k", bytesOf "old"), (bytesOf "z", bytesOf "2")]
        DEBUG 0) (bytesOf "k") (bytesOf "new") =
      MdcLogger.mk (bytesOf "app") []
        [(bytesOf "a", bytesOf "1"), (bytesOf "k", bytesOf "new"), (bytesOf "z", bytesOf "2")]
        DEBUG 0 :=
  (mdcUpdate_is_remove_then_add (MdcLogger.mk (bytesOf "app") []
    [(bytesOf "a", bytesOf "1"), (bytesOf "k", bytesOf "old"), (bytesOf "z", bytesOf "2")]
    DEBUG 0) (bytesOf "k") (bytesOf "new")
    (by simp only [KeysAscending]; decide)).2.2.1.trans (by decide)

/-! ## Initialising the format and the watcher -/

theorem MdcUpdate_fields (l : MdcLogger) (k v : GoString) :
    (MdcUpdate l k v).level = l.level ∧ (MdcUpdate l k v).init_done = l.init_done ∧
    (MdcUpdate l k v).proc = l.proc ∧ (MdcUpdate l k v).writer = l.writer := by
  unfold MdcUpdate
  simp only
  split <;> exact ⟨rfl, rfl, rfl, rfl⟩

theorem MdcGet_MdcUpdate_self (l : MdcLogger) (k v : GoString) :
    MdcGet (MdcUpdate l k v) k = (v, true) := by
  unfold MdcUpdate
  simp only
  split <;> simp [MdcGet, MdcAdd, lookupEntry_insertEntry_self]

theorem MdcGet_MdcUpdate_other (l : MdcLogger) (k v other : GoString) (h : other ≠ k) :
    MdcGet (MdcUpdate l k v) other = MdcGet l other := by
  unfold MdcUpdate
  simp only
  split
  · simp [MdcGet, MdcAdd, MdcRemove, lookupEntry_insertEntry_other k v other _ h,
      lookupEntry_eraseEntry_other k other l.mdc h]
  · simp [MdcGet, MdcAdd, lookupEntry_insertEntry_other k v other _ h]

theorem readEnvVar_eq (os : OS) (l : MdcLogger) (k : GoString) :
    readEnvVar os l k = (os.LookupEnv k).getD [] := by
  unfold readEnvVar
  cases os.LookupEnv k <;> rfl

theorem filledFromEnv_fields (os : OS) (l : MdcLogger) :
    (filledFromEnv os l).level = l.level ∧ (filledFromEnv os l).init_done = l.init_done ∧
    (filledFromEnv os l).proc = l.proc ∧ (filledFromEnv os l).writer = l.writer := by
  simp only [filledFromEnv, logFields, List.foldl, MdcUpdate_fields, and_self]

/-- The MDC after the first part of `Mdclog_format_initialize`. -/
theorem filledFromEnv_mdc (os : OS) (l : MdcLogger) :
    (∀ name ∈ logFields,
      MdcGet (filledFromEnv os l) name = ((os.LookupEnv name).getD [], true)) ∧
    MdcGet (filledFromEnv os l) (bytesOf "PID") = (Itoa os.Getpid, true) ∧
    (∀ k : GoString, k ∉ logFields → k ≠ bytesOf "PID" →
      MdcGet (filledFromEnv os l) k = MdcGet l k) := by
  refine ⟨?_, ?_, ?_⟩
  · intro name hname
    simp only [logFields, List.mem_cons, List.mem_singleton, List.not_mem_nil, or_false] at hname
    simp only [filledFromEnv, logFields, List.foldl, readEnvVar_eq]
    rcases hname with h | h | h | h | h <;> subst h
    · rw [MdcGet_MdcUpdate_other _ _ _ _ (by decide), MdcGet_MdcUpdate_other _ _ _ _ (by decide),
        MdcGet_MdcUpdate_other _ _ _ _ (by decide), MdcGet_MdcUpdate_other _ _ _ _ (by decide),
        MdcGet_MdcUpdate_other _ _ _ _ (by decide), MdcGet_MdcUpdate_self]
    · rw [MdcGet_MdcUpdate_other _ _ _ _ (by decide), MdcGet_MdcUpdate_other _ _ _ _ (by decide),
        MdcGet_MdcUpdate_other _ _ _ _ (by decide), MdcGet_MdcUpdate_other _ _ _ _ (by decide),
        MdcGet_MdcUpdate_self]
    · rw [MdcGet_MdcUpdate_other _ _ _ _ (by decide), MdcGet_MdcUpdate_other _ _ _ _ (by decide),
        MdcGet_MdcUpdate_other _ _ _ _ (by decide), MdcGet_MdcUpdate_self]
    · rw [MdcGet_MdcUpdate_other _ _ _ _ (by decide), MdcGet_MdcUpdate_other _ _ _ _ (by decide),
        MdcGet_MdcUpdate_self]
    · rw [MdcGet_MdcUpdate_other _ _ _ _ (by decide), MdcGet_MdcUpdate_self]
  · simp only [filledFromEnv]
    rw [MdcGet_MdcUpdate_self]
  · intro k hk hpid
    simp only [logFields, List.mem_cons, List.mem_singleton, List.not_mem_nil, or_false,
      not_or] at hk
    obtain ⟨h1, h2, h3, h4, h5⟩ := hk
    simp only [filledFromEnv, logFields, List.foldl]
    rw [MdcGet_MdcUpdate_other _ _ _ _ hpid, MdcGet_MdcUpdate_other _ _ _ _ h5,
      MdcGet_MdcUpdate_other _ _ _ _ h4, MdcGet_MdcUpdate_other _ _ _ _ h3,
      MdcGet_MdcUpdate_other _ _ _ _ h2, MdcGet_MdcUpdate_other _ _ _ _ h1]

theorem ParseFileContent_eq (mapUpper : GoString → GoString)
    (readFile : GoString → Option GoString) (fileName : GoString) (before : Level) :
    ∃ x : Level, ∀ l : MdcLogger, l.level = before →
      ParseFileContent mapUpper readFile l fileName = some (LevelSet l x) := by
  unfold ParseFileContent
  cases readFile fileName with
  | none => exact ⟨before, fun l hl => by subst hl; rfl⟩
  | some data =>
    refine ⟨((lastDirective (Split data (bytesOf "\n"))).map (levelOfLine mapUpper)).getD before,
      fun l hl => ?_⟩
    subst hl
    exact parseLines_result mapUpper _ l

theorem watchPath_eq (os : OS) (l l2 : MdcLogger) : watchPath os l = watchPath os l2 := rfl

theorem Mdclog_format_initialize_unfold (mapUpper : GoString → GoString) (os : OS)
    (p : Process) (n : Int) :
    Mdclog_format_initialize mapUpper os p n =
      (if n > 0 then
        if (!os.statNotExist (watchPath os (filledFromEnv os p.logger))) = true then
          if (filledFromEnv os p.logger).init_done = 0 then
            if (!os.NewWatcher) = true then
              some (Process.mk { filledFromEnv os p.logger with init_done := 1 } p.watching, -1)
            else if (!os.AddWatch (os.Dir (watchPath os (filledFromEnv os p.logger)))) = true then
              some (Process.mk { filledFromEnv os p.logger with init_done := 1 } p.watching, -1)
            else
              match ParseFileContent mapUpper os.ReadFile
                { filledFromEnv os p.logger with init_done := 1 }
                (watchPath os (filledFromEnv os p.logger)) with
              | none => none
              | some l4 =>
                some (Process.mk l4 (p.watching ++ [watchPath os (filledFromEnv os p.logger)]), 0)
          else some (Process.mk (filledFromEnv os p.logger) p.watching, -1)
        else some (Process.mk (filledFromEnv os p.logger) p.watching, -1)
      else some (Process.mk (filledFromEnv os p.logger) p.watching, -1)) := rfl

/-- The three ways `Mdclog_format_initialize` ends, after the MDC is filled:
the watcher is started and the file parsed, with result 0; the started flag is
set but the watcher or its watch fails, with result -1; nothing more happens,
with result -1. -/
theorem Mdclog_format_initialize_cases (mapUpper : GoString → GoString) (os : OS) (p : Process)
    (n : Int) :
    (0 < n ∧ os.statNotExist (watchPath os p.logger) = false ∧
      p.logger.init_done = 0 ∧ os.NewWatcher = true ∧
      os.AddWatch (os.Dir (watchPath os p.logger)) = true ∧
      ∃ x : Level,
        (∀ l : MdcLogger, l.level = p.logger.level →
          ParseFileContent mapUpper os.ReadFile l (watchPath os p.logger) =
            some (LevelSet l x)) ∧
        Mdclog_format_initialize mapUpper os p n =
          some (Process.mk (LevelSet { filledFromEnv os p.logger with init_done := 1 } x)
            (p.watching ++ [watchPath os p.logger]), 0)) ∨
    (0 < n ∧ os.statNotExist (watchPath os p.logger) = false ∧
      p.logger.init_done = 0 ∧
      (os.NewWatcher = false ∨ os.AddWatch (os.Dir (watchPath os p.logger)) = false) ∧
      Mdclog_format_initialize mapUpper os p n =
        some (Process.mk { filledFromEnv os p.logger with init_done := 1 } p.watching, -1)) ∨
    ((n ≤ 0 ∨ os.statNotExist (watchPath os p.logger) = true ∨ p.logger.init_done ≠ 0) ∧
      Mdclog_format_initialize mapUpper os p n =
        some (Process.mk (filledFromEnv os p.logger) p.watching, -1)) := by
  have hf := filledFromEnv_fields os p.logger
  have hunfold := Mdclog_format_initialize_unfold mapUpper os p n
  rw [watchPath_eq os (filledFromEnv os p.logger) p.logger] at hunfold
  rw [hunfold, hf.2.1]
  clear hunfold
  obtain ⟨hlevel, -, -, -⟩ := hf
  generalize filledFromEnv os p.logger = l2 at hlevel ⊢
  by_cases hn : n > 0
  · rw [if_pos hn]
    by_cases hst : os.statNotExist (watchPath os p.logger) = true
    · right; right
      refine ⟨Or.inr (Or.inl hst), ?_⟩
      rw [if_neg (by rw [hst]; decide)]
    · have hst2 : os.statNotExist (watchPath os p.logger) = false := by simpa using hst
      rw [if_pos (by rw [hst2]; rfl)]
      by_cases hi : p.logger.init_done = 0
      · rw [if_pos hi]
        by_cases hw : os.NewWatcher = true
        · rw [if_neg (by rw [hw]; decide)]
          by_cases ha : os.AddWatch (os.Dir (watchPath os p.logger)) = true
          · left
            rw [if_neg (by rw [ha]; decide)]
            obtain ⟨x, hx⟩ := ParseFileContent_eq mapUpper os.ReadFile (watchPath os p.logger)
              p.logger.level
            have hp := hx { l2 with init_done := 1 } hlevel
            refine ⟨hn, hst2, hi, hw, ha, x, hx, ?_⟩
            rw [hp]
          · have ha2 : os.AddWatch (os.Dir (watchPath os p.logger)) = false := by simpa using ha
            right; left
            refine ⟨hn, hst2, hi, Or.inr ha2, ?_⟩
            rw [if_pos (by rw [ha2]; rfl)]
        · have hw2 : os.NewWatcher = false := by simpa using hw
          right; left
          refine ⟨hn, hst2, hi, Or.inl hw2, ?_⟩
          rw [if_pos (by rw [hw2]; rfl)]
      · right; right
        refine ⟨Or.inr (Or.inr hi), ?_⟩
        rw [if_neg hi]
  · right; right
    refine ⟨Or.inl (by omega), ?_⟩
    rw [if_neg hn]

/-- The digits `formatBits` writes for a positive number are the decimal
digits of the number, most significant first, each as its ASCII character. -/
theorem formatBits_eq_digits (fuel : Nat) : ∀ (n : Nat) (acc : GoString), n < fuel → 0 < n →
    formatBits fuel n acc = ((Nat.digits 10 n).reverse.map (fun d => 48 + d)) ++ acc := by
  induction fuel with
  | zero => intro n acc h; omega
  | succ k ih =>
    intro n acc hn hpos
    simp only [formatBits]
    split
    · rename_i h10
      rw [Nat.digits_of_lt 10 n (by omega) h10]
      rfl
    · rename_i h10
      rw [ih (n / 10) _ (by omega) (by omega), Nat.digits_def' (by decide) hpos]
      simp only [List.reverse_cons, List.map_append, List.map_cons, List.map_nil,
        List.append_assoc, List.singleton_append]

/-- The decimal string `strconv.Itoa` returns: a minus sign for a negative
number, then `0` for zero and otherwise the decimal digits of the absolute
value, most significant first and without leading zero. -/
theorem Itoa_eq_digits (i : Int) :
    Itoa i = (if i < 0 then [0x2D] else []) ++
      (if i = 0 then [0x30] else (Nat.digits 10 i.natAbs).reverse.map (fun d => 48 + d)) := by
  unfold Itoa AppendInt
  by_cases h0 : i = 0
  · subst h0
    rfl
  · have hpos : 0 < i.natAbs := Int.natAbs_pos.2 h0
    have h := formatBits_eq_digits (i.natAbs + 1) i.natAbs [] (by omega) hpos
    rw [List.append_nil] at h
    rw [h, if_neg h0]
    split <;> rfl

/-- C14: for every logger, environment and value of `logFileMonitor` the call
returns, and afterwards the MDC holds under each of the five identity names
the value of the environment variable of that name, empty when it is unset,
and under PID the decimal string of the process id: a minus sign when the id
is negative, then `0` for zero and otherwise the decimal digits of the
absolute value, most significant first as ASCII characters (`4711` for the
id 4711); entries under other keys are as before. -/
theorem Mdclog_format_initialize_fills_mdc (mapUpper : GoString → GoString) (os : OS)
    (p : Process) (logFileMonitor : Int) :
    ∃ (q : Process) (ret : Int),
      Mdclog_format_initialize mapUpper os p logFileMonitor = some (q, ret) ∧
      (∀ name ∈ logFields, MdcGet q.logger name = ((os.LookupEnv name).getD [], true)) ∧
      MdcGet q.logger (bytesOf "PID") = (Itoa os.Getpid, true) ∧
      MdcGet q.logger (bytesOf "PID") =
        ((if os.Getpid < 0 then [0x2D] else []) ++
          (if os.Getpid = 0 then [0x30]
            else (Nat.digits 10 os.Getpid.natAbs).reverse.map (fun d => 48 + d)), true) ∧
      (os.Getpid = 4711 → MdcGet q.logger (bytesOf "PID") = (bytesOf "4711", true)) ∧
      (os.Getpid = 1 → MdcGet q.logger (bytesOf "PID") = (bytesOf "1", true)) ∧
      (∀ k : GoString, k ∉ logFields → k ≠ bytesOf "PID" →
        MdcGet q.logger k = MdcGet p.logger k) := by
  have hmdc := filledFromEnv_mdc os p.logger
  have hcases := Mdclog_format_initialize_cases mapUpper os p logFileMonitor
  have hpid := Itoa_eq_digits os.Getpid
  have h4711 : os.Getpid = 4711 → Itoa os.Getpid = bytesOf "4711" := by
    intro h
    rw [h]
    decide
  have h1 : os.Getpid = 1 → Itoa os.Getpid = bytesOf "1" := by
    intro h
    rw [h]
    decide
  generalize filledFromEnv os p.logger = l2 at hmdc hcases
  generalize Itoa os.Getpid = pid at hmdc hpid h4711 h1
  have hall : ∀ q : Process, q.logger.mdc = l2.mdc →
      (∀ name ∈ logFields, MdcGet q.logger name = ((os.LookupEnv name).getD [], true)) ∧
      MdcGet q.logger (bytesOf "PID") = (pid, true) ∧
      MdcGet q.logger (bytesOf "PID") =
        ((if os.Getpid < 0 then [0x2D] else []) ++
          (if os.Getpid = 0 then [0x30]
            else (Nat.digits 10 os.Getpid.natAbs).reverse.map (fun d => 48 + d)), true) ∧
      (os.Getpid = 4711 → MdcGet q.logger (bytesOf "PID") = (bytesOf "4711", true)) ∧
      (os.Getpid = 1 → MdcGet q.logger (bytesOf "PID") = (bytesOf "1", true)) ∧
      (∀ k : GoString, k ∉ logFields → k ≠ bytesOf "PID" →
        MdcGet q.logger k = MdcGet p.logger k) := by
    intro q hq
    have hget : ∀ k, MdcGet q.logger k = MdcGet l2 k := by
      intro k
      simp only [MdcGet, hq]
    refine ⟨fun name hn => (hget name).trans (hmdc.1 name hn), (hget _).trans hmdc.2.1, ?_, ?_, ?_,
      fun k hk hp => (hget k).trans (hmdc.2.2 k hk hp)⟩
    · rw [hget, hmdc.2.1, hpid]
    · intro h
      rw [hget, hmdc.2.1, h4711 h]
    · intro h
      rw [hget, hmdc.2.1, h1 h]
  rcases hcases with ⟨_, _, _, _, _, x, _, h⟩ | ⟨_, _, _, _, h⟩ | ⟨_, h⟩
  · exact ⟨_, _, h, hall _ rfl⟩
  · exact ⟨_, _, h, hall _ rfl⟩
  · exact ⟨_, _, h, hall _ rfl⟩

theorem levelOfValue_WARN (mapUpper : GoString → GoString) :
    levelOfValue mapUpper (bytesOf "WARN") = WARN := by
  simp only [levelOfValue]
  rw [ToUpper_ascii mapUpper _ (by decide)]
  decide

theorem ParseFileContent_WARN (mapUpper : GoString → GoString)
    (readFile : GoString → Option GoString) (l : MdcLogger) (fileName : GoString)
    (h : readFile fileName = some (bytesOf "log-level:WARN")) :
    ParseFileContent mapUpper readFile l fileName = some (LevelSet l WARN) := by
  simp only [ParseFileContent, h]
  have hs : Split (bytesOf "log-level:WARN") (bytesOf "\n") =
      [bytesOf "log-level:" ++ bytesOf "WARN"] := by decide
  rw [hs, parseLines_directive_step mapUpper (bytesOf "WARN") (by decide), levelOfValue_WARN]
  rfl

/-- C15: on a logger whose started flag is 0, when monitoring is requested,
the path of `CONFIG_MAP_NAME` exists and the watcher and its watch are created,
the call returns 0 with the threshold `ParseFileContent` computes for the file
(WARN for a file that is `log-level:WARN`), the MDC holds a PID entry, the
started flag is 1 and one watcher was started for the path. -/
theorem Mdclog_format_initialize_starts_watcher (mapUpper : GoString → GoString) (os : OS)
    (p : Process) (logFileMonitor : Int) (hflag : p.logger.init_done = 0)
    (hmon : 0 < logFileMonitor) (hexists : os.statNotExist (watchPath os p.logger) = false)
    (hw : os.NewWatcher = true) (ha : os.AddWatch (os.Dir (watchPath os p.logger)) = true) :
    ∃ (q : Process) (l5 : MdcLogger),
      Mdclog_format_initialize mapUpper os p logFileMonitor = some (q, 0) ∧
      ParseFileContent mapUpper os.ReadFile p.logger (watchPath os p.logger) = some l5 ∧
      LevelGet q.logger = LevelGet l5 ∧
      (MdcGet q.logger (bytesOf "PID")).2 = true ∧
      q.logger.init_done = 1 ∧
      q.watching = p.watching ++ [watchPath os p.logger] ∧
      (os.ReadFile (watchPath os p.logger) = some (bytesOf "log-level:WARN") →
        LevelGet q.logger = WARN) := by
  have hmdc := (filledFromEnv_mdc os p.logger).2.1
  have hcases := Mdclog_format_initialize_cases mapUpper os p logFileMonitor
  generalize filledFromEnv os p.logger = l2 at hmdc hcases
  rcases hcases with ⟨_, _, _, _, _, x, hx, h⟩ | ⟨_, _, _, hfail, _⟩ | ⟨hnot, _⟩
  · refine ⟨_, LevelSet p.logger x, h, hx p.logger rfl, rfl, ?_, rfl, rfl, ?_⟩
    · have : MdcGet (LevelSet { l2 with init_done := 1 } x) (bytesOf "PID") =
          MdcGet l2 (bytesOf "PID") := rfl
      rw [this, hmdc]
    · intro hfile
      have h1 := ParseFileContent_WARN mapUpper os.ReadFile p.logger _ hfile
      rw [hx p.logger rfl] at h1
      have h2 : (LevelSet p.logger x).level = (LevelSet p.logger WARN).level :=
        congrArg MdcLogger.level (Option.some.inj h1)
      exact h2
  · rcases hfail with h | h
    · rw [hw] at h; cases h
    · rw [ha] at h; cases h
  · rcases hnot with h | h | h
    · omega
    · rw [hexists] at h; cases h
    · exact absurd hflag h

/-- C15 in the world of the repository's test, the file holding
`log-level:WARN` and two newlines: the call returns 0 and the threshold is
WARN. -/
theorem Mdclog_format_initialize_starts_watcher_witness :
    ∃ q : Process,
      Mdclog_format_initialize id (testWorld (bytesOf "log-level:WARN\n\n") true)
        (Process.mk (initLogger (bytesOf "app") []).1 []) 1 = some (q, 0) ∧
      LevelGet q.logger = WARN ∧ (MdcGet q.logger (bytesOf "PID")).2 = true ∧
      q.watching = [bytesOf "/tmp/log-file"] :=
  (Mdclog_format_initialize_starts_watcher id (testWorld (bytesOf "log-level:WARN\n\n") true)
    (Process.mk (initLogger (bytesOf "app") []).1 []) 1 rfl (by decide) (by decide) rfl
    rfl).elim
    (fun q h => h.elim (fun l5 h2 => ⟨q, h2.1,
      h2.2.2.1.trans (congrArg LevelGet (Option.some.inj (h2.2.1.symm.trans (by decide)) :
        l5 = LevelSet (initLogger (bytesOf "app") []).1 WARN)),
      h2.2.2.2.1, h2.2.2.2.2.2.1⟩))

/-- C16 as stated fails: a second call on a logger whose watcher runs returns
-1 and not 0, and a call that does not ask for monitoring returns -1, the
value of the call whose watcher cannot be created. -/
theorem result_does_not_tell_outcomes_apart :
    (( Mdclog_format_initialize id (testWorld (bytesOf "log-level:WARN\n\n") true)
        (Process.mk (initLogger (bytesOf "app") []).1 []) 1).bind
      (fun r => Mdclog_format_initialize id (testWorld (bytesOf "log-level:WARN\n\n") true)
        r.1 1)).map (fun r => r.2) = some (-1) ∧
    ( Mdclog_format_initialize id (testWorld (bytesOf "log-level:WARN\n\n") true)
      (Process.mk (initLogger (bytesOf "app") []).1 []) 0).map (fun r => r.2) = some (-1) ∧
    ( Mdclog_format_initialize id (testWorld (bytesOf "log-level:WARN\n\n") false)
      (Process.mk (initLogger (bytesOf "app") []).1 []) 1).map (fun r => r.2) = some (-1) ∧
    ( Mdclog_format_initialize id (testWorld (bytesOf "log-level:WARN\n\n") true)
      (Process.mk (initLogger (bytesOf "app") []).1 []) 1).map (fun r => r.2) = some 0 := by
  decide

/-- C16 (as amended): the call returns 0 exactly when monitoring is requested,
the path exists, the started flag was 0 and the watcher and its watch are
created; in every other case, failure of the watcher, a watcher already
started, monitoring not requested or a missing path, it returns -1. -/
theorem Mdclog_format_initialize_result (mapUpper : GoString → GoString) (os : OS)
    (p : Process) (logFileMonitor : Int) :
    ∃ (q : Process) (ret : Int),
      Mdclog_format_initialize mapUpper os p logFileMonitor = some (q, ret) ∧
      (ret = 0 ∨ ret = -1) ∧
      (ret = 0 ↔ (0 < logFileMonitor ∧ os.statNotExist (watchPath os p.logger) = false ∧
        p.logger.init_done = 0 ∧ os.NewWatcher = true ∧
        os.AddWatch (os.Dir (watchPath os p.logger)) = true)) := by
  have hcases := Mdclog_format_initialize_cases mapUpper os p logFileMonitor
  generalize filledFromEnv os p.logger = l2 at hcases
  rcases hcases with ⟨h1, h2, h3, h4, h5, x, _, h⟩ | ⟨_, _, _, hfail, h⟩ | ⟨hnot, h⟩
  · exact ⟨_, 0, h, Or.inl rfl, ⟨fun _ => ⟨h1, h2, h3, h4, h5⟩, fun _ => rfl⟩⟩
  · refine ⟨_, -1, h, Or.inr rfl, ⟨fun hz => absurd hz (by decide), ?_⟩⟩
    rintro ⟨_, _, _, h4, h5⟩
    rcases hfail with hf | hf
    · rw [h4] at hf; cases hf
    · rw [h5] at hf; cases hf
  · refine ⟨_, -1, h, Or.inr rfl, ⟨fun hz => absurd hz (by decide), ?_⟩⟩
    rintro ⟨h1, h2, h3, _, _⟩
    rcases hnot with hf | hf | hf
    · omega
    · rw [h2] at hf; cases hf
    · exact absurd h3 hf

/-! ## The started flag -/

/-- Logging keeps the started flag. -/
theorem Log_init_done {α : Type} (verbs : GoString → List α → GoString) (l : MdcLogger)
    (now : Int) (level : Level) (formatMsg : GoString) (a : List α) :
    (Log verbs l now level formatMsg a).init_done = l.init_done := by
  unfold Log
  split
  · rfl
  · split <;> rfl

/-- Parsing the configuration file keeps the started flag. -/
theorem ParseFileContent_init_done (mapUpper : GoString → GoString)
    (readFile : GoString → Option GoString) (l l1 : MdcLogger) (fileName : GoString)
    (h : ParseFileContent mapUpper readFile l fileName = some l1) :
    l1.init_done = l.init_done := by
  obtain ⟨x, hx⟩ := ParseFileContent_eq mapUpper readFile fileName l.level
  rw [hx l rfl] at h
  rw [← Option.some.inj h]
  rfl

/-- What one operation does to the started flag and to the watchers: both are
kept, or the flag was 0, is 1 afterwards and at most one watcher is added. -/
theorem perform_flag_and_watchers {α : Type} (verbs : GoString → List α → GoString)
    (mapUpper : GoString → GoString) (os : OS) (p q : Process) (op : Op α)
    (h : perform verbs mapUpper os p op = some q) :
    (q.logger.init_done = p.logger.init_done ∧ q.watching = p.watching) ∨
    (p.logger.init_done = 0 ∧ q.logger.init_done = 1 ∧
      (q.watching = p.watching ∨ ∃ path, q.watching = p.watching ++ [path])) := by
  cases op with
  | Log now level formatMsg a =>
    simp only [perform, Option.some.injEq] at h
    subst h
    exact Or.inl ⟨Log_init_done verbs p.logger now level formatMsg a, rfl⟩
  | LevelSet level =>
    simp only [perform, Option.some.injEq] at h
    subst h
    exact Or.inl ⟨rfl, rfl⟩
  | MdcAdd key value =>
    simp only [perform, Option.some.injEq] at h
    subst h
    exact Or.inl ⟨rfl, rfl⟩
  | MdcRemove key =>
    simp only [perform, Option.some.injEq] at h
    subst h
    exact Or.inl ⟨rfl, rfl⟩
  | MdcClean =>
    simp only [perform, Option.some.injEq] at h
    subst h
    exact Or.inl ⟨rfl, rfl⟩
  | MdcUpdate key value =>
    simp only [perform, Option.some.injEq] at h
    subst h
    exact Or.inl ⟨(MdcUpdate_fields p.logger key value).2.1, rfl⟩
  | ParseFileContent fileName =>
    simp only [perform, Option.map_eq_some'] at h
    obtain ⟨l1, hl1, rfl⟩ := h
    exact Or.inl ⟨ParseFileContent_init_done mapUpper os.ReadFile p.logger l1 fileName hl1, rfl⟩
  | Mdclog_format_initialize logFileMonitor =>
    simp only [perform, Option.map_eq_some'] at h
    obtain ⟨r, hr, rfl⟩ := h
    have hf := (filledFromEnv_fields os p.logger).2.1
    have hcases := Mdclog_format_initialize_cases mapUpper os p logFileMonitor
    generalize filledFromEnv os p.logger = l2 at hf hcases
    rcases hcases with ⟨_, _, h0, _, _, x, _, hres⟩ | ⟨_, _, h0, _, hres⟩ | ⟨_, hres⟩
    · rw [hres] at hr
      rw [← Option.some.inj hr]
      exact Or.inr ⟨h0, rfl, Or.inr ⟨_, rfl⟩⟩
    · rw [hres] at hr
      rw [← Option.some.inj hr]
      exact Or.inr ⟨h0, rfl, Or.inl rfl⟩
    · rw [hres] at hr
      rw [← Option.some.inj hr]
      exact Or.inl ⟨hf, rfl⟩
  | watch_changes fileName n =>
    simp only [perform] at h
    split at h
    · simp only [Option.map_eq_some'] at h
      obtain ⟨l1, hl1, rfl⟩ := h
      refine Or.inl ⟨?_, rfl⟩
      cases n with
      | event name =>
        simp only [watch_changes] at hl1
        split at hl1
        · exact ParseFileContent_init_done mapUpper os.ReadFile p.logger l1 fileName hl1
        · rw [← Option.some.inj hl1]
      | error err =>
        simp only [watch_changes] at hl1
        rw [← Option.some.inj hl1]
    · rw [← Option.some.inj h]
      exact Or.inl ⟨rfl, rfl⟩

/-- The invariant of the started flag: it is 0 or 1, and no watcher runs while
it is 0, at most one while it is 1. -/
theorem Reachable_flag_and_watchers {α : Type} (verbs : GoString → List α → GoString)
    (mapUpper : GoString → GoString) (p : Process) (h : Reachable verbs mapUpper p) :
    (p.logger.init_done = 0 ∧ p.watching = []) ∨
    (p.logger.init_done = 1 ∧ p.watching.length ≤ 1) := by
  induction h with
  | init proc writer => exact Or.inl ⟨rfl, rfl⟩
  | step p q os op _ hstep ih =>
    rcases perform_flag_and_watchers verbs mapUpper os p q op hstep with
      ⟨hd, hw⟩ | ⟨h0, h1, hw⟩
    · rw [hd, hw]
      exact ih
    · rcases ih with ⟨_, hnil⟩ | ⟨h1p, _⟩
      · refine Or.inr ⟨h1, ?_⟩
        rcases hw with hw | ⟨path, hw⟩
        · rw [hw, hnil]
          exact Nat.zero_le 1
        · rw [hw, hnil]
          exact Nat.le_refl 1
      · rw [h0] at h1p
        exact absurd h1p (by decide)

/-- A process whose watcher runs is reachable: the first call of
`Mdclog_format_initialize` in the world of the repository's test. -/
theorem Reachable_started {α : Type} (verbs : GoString → List α → GoString)
    (mapUpper : GoString → GoString) :
    ∃ p : Process, Reachable verbs mapUpper p ∧ p.logger.init_done = 1 ∧
      p.watching = [bytesOf "/tmp/log-file"] := by
  have hcases := Mdclog_format_initialize_cases mapUpper
    (testWorld (bytesOf "log-level:WARN\n\n") true)
    (Process.mk (initLogger (bytesOf "app") []).1 []) 1
  have hpath : watchPath (testWorld (bytesOf "log-level:WARN\n\n") true)
      (initLogger (bytesOf "app") []).1 = bytesOf "/tmp/log-file" := by decide
  generalize filledFromEnv (testWorld (bytesOf "log-level:WARN\n\n") true)
    (Process.mk (initLogger (bytesOf "app") []).1 []).logger = l2 at hcases
  rcases hcases with ⟨_, _, _, _, _, x, _, hres⟩ | ⟨_, _, _, hfail, _⟩ | ⟨hnot, _⟩
  · refine ⟨Process.mk (LevelSet { l2 with init_done := 1 } x) ([] ++ [bytesOf "/tmp/log-file"]),
      Reachable.step _ _ (testWorld (bytesOf "log-level:WARN\n\n") true)
        (Op.Mdclog_format_initialize 1) (Reachable.init (bytesOf "app") []) ?_, rfl, rfl⟩
    simp only [perform]
    rw [hres]
    simp only [Option.map_some', hpath]
  · rcases hfail with h | h
    · exact absurd h (by decide)
    · exact absurd h (by decide)
  · rcases hnot with h | h | h
    · exact absurd h (by decide)
    · exact absurd h (by decide)
    · exact absurd rfl h

/-- C17: the started flag is a one-way latch. In every reachable state of the
process `init_done` is 0 or 1 and at most one watcher has been started,
whatever the sequence of operations, and a state with the flag at 1 and one
watcher is reachable; no operation takes the flag from 1 to another value; and
a call of `Mdclog_format_initialize` made when the flag is 1 returns, starts no
watcher, leaves the flag at 1 and does not parse the file: the threshold is
the one before the call. -/
theorem init_done_is_a_latch {α : Type} (verbs : GoString → List α → GoString)
    (mapUpper : GoString → GoString) :
    (∀ p : Process, Reachable verbs mapUpper p →
      (p.logger.init_done = 0 ∨ p.logger.init_done = 1) ∧ p.watching.length ≤ 1) ∧
    (∃ p : Process, Reachable verbs mapUpper p ∧ p.logger.init_done = 1 ∧
      p.watching.length = 1) ∧
    (∀ (os : OS) (p q : Process) (op : Op α), perform verbs mapUpper os p op = some q →
      p.logger.init_done = 1 → q.logger.init_done = 1) ∧
    (∀ (os : OS) (p : Process) (logFileMonitor : Int), p.logger.init_done = 1 →
      ∃ (q : Process) (ret : Int),
        Mdclog_format_initialize mapUpper os p logFileMonitor = some (q, ret) ∧
        q.watching = p.watching ∧ q.logger.init_done = 1 ∧
        LevelGet q.logger = LevelGet p.logger ∧ q.logger.writer = p.logger.writer) := by
  refine ⟨?_, ?_, ?_, ?_⟩
  · intro p hp
    rcases Reachable_flag_and_watchers verbs mapUpper p hp with ⟨h0, hnil⟩ | ⟨h1, hlen⟩
    · rw [hnil]
      exact ⟨Or.inl h0, Nat.zero_le 1⟩
    · exact ⟨Or.inr h1, hlen⟩
  · obtain ⟨p, hp, h1, hw⟩ := Reachable_started verbs mapUpper
    exact ⟨p, hp, h1, by rw [hw]; rfl⟩
  · intro os p q op hstep h1
    rcases perform_flag_and_watchers verbs mapUpper os p q op hstep with ⟨hd, _⟩ | ⟨h0, _, _⟩
    · rw [hd]
      exact h1
    · rw [h1] at h0
      exact absurd h0 (by decide)
  · intro os p logFileMonitor h1
    have hf := filledFromEnv_fields os p.logger
    have hcases := Mdclog_format_initialize_cases mapUpper os p logFileMonitor
    generalize filledFromEnv os p.logger = l2 at hf hcases
    rcases hcases with ⟨_, _, h0, _⟩ | ⟨_, _, h0, _⟩ | ⟨_, hres⟩
    · rw [h1] at h0
      exact absurd h0 (by decide)
    · rw [h1] at h0
      exact absurd h0 (by decide)
    · exact ⟨_, _, hres, rfl, hf.2.1.trans h1, hf.1, hf.2.2.2⟩

end Golog
